import Mathlib

/-!
Verification of the playbook metadata extraction, validation and
reconciliation scripts.  The Python sources are shallowly embedded over
`List Char`: each regular-expression search is translated into an explicit
deterministic scanner that reproduces the leftmost-match, greedy and
backtracking behaviour of the original pattern on the inputs the scripts
handle.  Scanners that advance past a successful match (the semantics of
`re.findall` and `re.sub`) are written with an explicit fuel argument,
always instantiated with the length of the scanned text, which makes them
structurally recursive and hence computable by `decide`.
-/

set_option maxHeartbeats 1000000
set_option maxRecDepth 10000

namespace Playbook

/-- Character test matching the whitespace class of Python regular
expressions and `str.strip` on the character sets the scripts handle. -/
def isPySpace (c : Char) : Bool :=
  c == ' ' || c == '\t' || c == '\n' || c == '\r' || c == '\x0b' || c == '\x0c' ||
  c == '\x1c' || c == '\x1d' || c == '\x1e' || c == '\x1f' || c == '\x85' || c == '\xa0'

/-- Character test matching the word class of Python regular expressions
on ASCII input. -/
def isWordChar (c : Char) : Bool :=
  c.isAlphanum || c == '_'

/-- Line-break characters recognised by Python `str.splitlines`. -/
def isLineBreak (c : Char) : Bool :=
  c == '\n' || c == '\r' || c == '\x0b' || c == '\x0c' ||
  c == '\x1c' || c == '\x1d' || c == '\x1e' || c == '\x85' ||
  c == '\u2028' || c == '\u2029'

/-- Boolean test that the first list is an initial segment of the second. -/
def pfx : List Char → List Char → Bool
  | [], _ => true
  | _ :: _, [] => false
  | a :: as, b :: bs => a == b && pfx as bs

/-- Boolean test that `pat` occurs as a contiguous segment of `s`
(the semantics of the Python `in` operator on strings). -/
def occursIn (pat : List Char) : List Char → Bool
  | [] => pfx pat []
  | s@(_ :: t) => pfx pat s || occursIn pat t

/-- Split at the leftmost occurrence of `pat`, returning the text before the
occurrence and the text after it, or `none` if `pat` does not occur. -/
def splitOnFirst (pat : List Char) : List Char → Option (List Char × List Char)
  | [] => if pfx pat [] then some ([], []) else none
  | s@(c :: t) =>
    if pfx pat s then some ([], s.drop pat.length)
    else match splitOnFirst pat t with
      | some (a, b) => some (c :: a, b)
      | none => none

/-- Python `str.strip()` on a character list. -/
def pyStrip (l : List Char) : List Char :=
  ((l.dropWhile isPySpace).reverse.dropWhile isPySpace).reverse

/-- Python `str.strip('"')` on a character list. -/
def pyStripQuotes (l : List Char) : List Char :=
  ((l.dropWhile (· == '"')).reverse.dropWhile (· == '"')).reverse

/-- Python `str.lstrip("/")` on a character list. -/
def pyLstripSlash (l : List Char) : List Char :=
  l.dropWhile (· == '/')

/-- Python `str.split("\n")` on a character list. -/
def lineSplit : List Char → List (List Char)
  | [] => [[]]
  | c :: t =>
    if c = '\n' then [] :: lineSplit t
    else match lineSplit t with
      | l :: ls => (c :: l) :: ls
      | [] => [[c]]

/-- Python `str.splitlines()` on a character list. -/
def pySplitLines : List Char → List (List Char)
  | [] => []
  | '\r' :: '\n' :: t => [] :: pySplitLines t
  | c :: t =>
    if isLineBreak c then [] :: pySplitLines t
    else match pySplitLines t with
      | l :: ls => (c :: l) :: ls
      | [] => [[c]]

/-- Python dict insertion: an existing key keeps its position and gets the
new value, a new key is appended. -/
def updateAssoc (d : List (List Char × List Char)) (k v : List Char) :
    List (List Char × List Char) :=
  match d with
  | [] => [(k, v)]
  | (k0, v0) :: rest =>
    if k0 = k then (k, v) :: rest else (k0, v0) :: updateAssoc rest k v

/-- Lookup in an association list by key. -/
def lookupAssoc (d : List (List Char × List Char)) (k : List Char) :
    Option (List Char) :=
  match d with
  | [] => none
  | (k0, v) :: rest => if k0 = k then some v else lookupAssoc rest k

/-- Leftmost-match search: try the matcher at every position from the left
and return the first result (the semantics of `re.search`). -/
def searchO (f : List Char → Option α) : List Char → Option α
  | [] => f []
  | s@(_ :: t) =>
    match f s with
    | some a => some a
    | none => searchO f t

/-- Fueled findall scanner: at each position try the matcher; on a match
emit its value and continue after the match, otherwise advance one
character (the semantics of `re.findall` for patterns that cannot match
the empty string).  Fuel is always instantiated with the length of the
scanned text, which bounds the number of steps. -/
def scanAllF (f : List Char → Option (α × List Char)) : Nat → List Char → List α
  | 0, _ => []
  | _ + 1, [] => []
  | fuel + 1, s@(_ :: t) =>
    match f s with
    | some (a, r) => a :: scanAllF f fuel r
    | none => scanAllF f fuel t

/-- Fueled substitution scanner: at each position try the matcher; on a
match emit the replacement and continue after the match, otherwise copy one
character (the semantics of `re.sub` for patterns that cannot match the
empty string). -/
def subAllF (f : List Char → Option (List Char)) (repl : List Char) :
    Nat → List Char → List Char
  | 0, s => s
  | _ + 1, [] => []
  | fuel + 1, s@(c :: t) =>
    match f s with
    | some r => repl ++ subAllF f repl fuel r
    | none => c :: subAllF f repl fuel t

/-- Fueled findall scanner restricted to line-start positions (the
semantics of `re.findall` with `re.MULTILINE` for patterns anchored by a
caret, which cannot match the empty string).  The Boolean state records
whether the current position starts a line. -/
def scanLinesF (f : List Char → Option (α × List Char)) :
    Nat → Bool → List Char → List α
  | 0, _, _ => []
  | _ + 1, _, [] => []
  | fuel + 1, atLS, s@(c :: t) =>
    match (if atLS then f s else none) with
    | some (a, r) => a :: scanLinesF f fuel false r
    | none => scanLinesF f fuel (c == '\n') t

/-- Leftmost search restricted to line-start positions (the semantics of
`re.search` with `re.MULTILINE` for caret-anchored patterns). -/
def searchLines (f : List Char → Option α) : Bool → List Char → Option α
  | _, [] => none
  | atLS, s@(c :: t) =>
    match (if atLS then f s else none) with
    | some a => some a
    | none => searchLines f (c == '\n') t

/-- Case-insensitive prefix test against a lowercase pattern, matching a
Python `re.IGNORECASE` literal on ASCII input. -/
def ciPfx (pat s : List Char) : Bool :=
  pfx pat ((s.take pat.length).map Char.toLower)

/-- Strict lexicographic comparison of character lists by code point, the
order used by Python string comparison and `sorted`. -/
def lexLt : List Char → List Char → Bool
  | [], [] => false
  | [], _ :: _ => true
  | _ :: _, [] => false
  | a :: as, b :: bs => if a < b then true else if b < a then false else lexLt as bs

/-- Insertion into a list sorted by `lexLt`. -/
def insertLex (x : List Char) : List (List Char) → List (List Char)
  | [] => [x]
  | y :: ys => if lexLt x y then x :: y :: ys else y :: insertLex x ys

/-- Insertion sort by `lexLt`; with a duplicate-free input this computes
the ascending enumeration returned by Python `sorted`. -/
def sortLex (l : List (List Char)) : List (List Char) :=
  l.foldr insertLex []

/-- Removal of duplicates keeping the first occurrence of each element
(the seen-set loop used by the extractors). -/
def dedupFirstAux (seen : List (List Char)) : List (List Char) → List (List Char)
  | [] => []
  | x :: xs =>
    if x ∈ seen then dedupFirstAux seen xs
    else x :: dedupFirstAux (x :: seen) xs

/-- Removal of duplicates keeping first occurrences. -/
def dedupFirst (l : List (List Char)) : List (List Char) :=
  dedupFirstAux [] l

/-- Index of the first occurrence of `x` in a list (the list length when
`x` is absent), the yardstick for first-occurrence order. -/
def firstOccIdx (x : List Char) : List (List Char) → Nat
  | [] => 0
  | y :: ys => if y = x then 0 else firstOccIdx x ys + 1

/-!
Embedding of `scripts/playbook_utils.py`.
-/

/-- Patterns tested by `is_skill_file` (`playbook_utils.py`, lines 63-68),
each of which must be followed by one whitespace character. -/
def skillIndicators : List (List Char) :=
  [("You are").toList, ("You will").toList, ("Lets").toList, ("You should").toList]

/-- Test that `p` matches at the start of `l` followed by a whitespace
character, the semantics of `re.match` for the skill-indicator patterns. -/
def matchIndicator (p l : List Char) : Bool :=
  pfx p l &&
    (match l.drop p.length with
     | c :: _ => isPySpace c
     | [] => false)

/-- Embedding of `is_skill_file` (`playbook_utils.py`, lines 61-70): the
first line of the content, stripped, is tested against the four
indicator patterns. -/
def is_skill_file (content : List Char) : Bool :=
  let firstLine := pyStrip (content.takeWhile (fun c => !(c == '\n')))
  skillIndicators.any (fun p => matchIndicator p firstLine)

/-- Rule stated by the specification for skill classification: the first
line that is non-empty after stripping is tested against the three
imperative-address patterns named in the specification.  This definition
follows the specification words and is compared against `is_skill_file`. -/
def skillRuleSpec (content : List Char) : Bool :=
  match (lineSplit content).find? (fun l => !(pyStrip l).isEmpty) with
  | some l =>
    [("You are").toList, ("You will").toList, ("You should").toList].any
      (fun p => matchIndicator p (pyStrip l))
  | none => false

/-!
Embedding of `scripts/validate-conventions.py` (`validate_related_commands`)
and of the related-commands length check of `scripts/evolve.py`
(`validate_metadata`, lines 140-149).
-/

/-- Hub commands allowed to exceed the five-link limit
(`validate-conventions.py`, line 25). -/
def hubCommands : List (List Char) :=
  [("pb-patterns.md").toList]

/-- Line loop of `validate_related_commands` (`validate-conventions.py`,
lines 105-117): count lines starting with the related-command bullet
inside the Related Commands section, stopping at the next heading or
horizontal rule. -/
def relatedCountLines : Bool → List (List Char) → Nat
  | _, [] => 0
  | inSection, l :: ls =>
    if pfx ("## Related Commands").toList (pyStrip l) then
      relatedCountLines true ls
    else if inSection then
      if pfx ("## ").toList l || pfx ("---").toList l then 0
      else if pfx ("- `/pb-").toList (pyStrip l) then
        1 + relatedCountLines true ls
      else relatedCountLines true ls
    else relatedCountLines false ls

/-- Number of related-command links counted by the conventions
validator. -/
def relatedLinkCount (content : List Char) : Nat :=
  relatedCountLines false (pySplitLines content)

/-- Outcome of one `validate_related_commands` check. -/
inductive ConvOutcome
  | pass
  | warn
  | fail
deriving DecidableEq, Repr

/-- Embedding of `validate_related_commands` (`validate-conventions.py`,
lines 102-131): zero links yields a warning, a count within the limit
passes, a count above the limit fails; hub commands get limit 10,
others 5. -/
def validate_related_commands (name content : List Char) : ConvOutcome :=
  let cnt := relatedLinkCount content
  if cnt = 0 then ConvOutcome.warn
  else
    let limit := if name ∈ hubCommands then 10 else 5
    if cnt ≤ limit then ConvOutcome.pass else ConvOutcome.fail

/-- Embedding of the `TOO_MANY` related-commands check of
`evolve.py` `validate_metadata` (lines 140-145): the front-matter list
is flagged exactly when it holds more than five items, with no hub
exemption. -/
def evolveRelatedTooMany (rel : List (List Char)) : Bool :=
  decide (rel.length > 5)

/-!
Embedding of `scripts/validate-extracted-metadata.py`
(`_validate_references`, lines 198-243).
-/

/-- Reference fields of one command record, as read by
`_validate_references` with a missing field collapsed to the empty
list. -/
structure RefMeta where
  related_commands : List (List Char)
  next_steps : List (List Char)
  prerequisites : List (List Char)
deriving DecidableEq, Repr

/-- Field tag carried by an `invalid_reference` warning. -/
inductive RefField
  | related
  | nextSteps
  | prereqs
deriving DecidableEq, Repr

/-- Reference lists of a record selected by field tag. -/
def fieldRefs (m : RefMeta) : RefField → List (List Char)
  | RefField.related => m.related_commands
  | RefField.nextSteps => m.next_steps
  | RefField.prereqs => m.prerequisites

/-- One warning of kind `invalid_reference`, carrying the reporting
command, the containing field and the dangling reference. -/
structure RefWarning where
  command : List Char
  field : RefField
  reference : List Char
deriving DecidableEq, Repr

/-- Warnings emitted for one command by `_validate_references`: a
related-commands reference warns when its stripped name is neither a valid
command nor the command itself; next-steps and prerequisites references
warn whenever the stripped name is not a valid command. -/
def refWarningsFor (validNames : List (List Char)) (cmd : List Char)
    (m : RefMeta) : List RefWarning :=
  (m.related_commands.filterMap fun ref =>
    if pyLstripSlash ref ∉ validNames ∧ pyLstripSlash ref ≠ cmd then
      some ⟨cmd, RefField.related, ref⟩
    else none)
  ++ (m.next_steps.filterMap fun ref =>
    if pyLstripSlash ref ∉ validNames then
      some ⟨cmd, RefField.nextSteps, ref⟩
    else none)
  ++ (m.prerequisites.filterMap fun ref =>
    if pyLstripSlash ref ∉ validNames then
      some ⟨cmd, RefField.prereqs, ref⟩
    else none)

/-- Embedding of `_validate_references`: the valid-command set is the key
set of the command map, and every command contributes its warnings in
order. -/
def validate_references (commands : List (List Char × RefMeta)) :
    List RefWarning :=
  let validNames := commands.map Prod.fst
  (commands.map (fun p => refWarningsFor validNames p.1 p.2)).flatten

/-!
Reference-token extraction (`extract-playbook-metadata.py`).
-/

/-- Anchored matcher for the reference-token pattern: a slash-pb-hyphen
literal followed by a maximal nonempty run of word characters and
hyphens. -/
def tryPbRef (s : List Char) : Option (List Char × List Char) :=
  if pfx ("/pb-").toList s then
    let rest := s.drop 4
    let run := rest.takeWhile (fun c => isWordChar c || c == '-')
    if run.isEmpty then none
    else some (("/pb-").toList ++ run, rest.drop run.length)
  else none

/-- All reference tokens of a text in order of occurrence, the findall
step shared by the reference extractors. -/
def findPbRefs (s : List Char) : List (List Char) :=
  scanAllF tryPbRef s.length s

/-- Embedding of `_extract_related_commands`
(`extract-playbook-metadata.py`, lines 237-248): every reference token of
the whole text, deduplicated and sorted. -/
def extract_related_commands (content : List Char) : List (List Char) :=
  sortLex (dedupFirst (findPbRefs content))

/-- Splitter for the whitespace-then-newline part of the section heading
patterns: the longest whitespace run whose final consumed character is a
newline is removed, and the remainder after that newline is returned;
no newline in the run means the heading pattern fails. -/
def wsNewlineSplit (r : List Char) : Option (List Char) :=
  let w := r.takeWhile isPySpace
  let rv := w.reverse.dropWhile (fun c => !(c == '\n'))
  if rv.isEmpty then none else some (r.drop rv.length)

/-- Anchored matcher for a section heading: two hashes, at least one
whitespace character, one of the given lowercase keywords
case-insensitively, whitespace ending in a newline, then the section body
up to the next two hashes or the end of text. -/
def tryHeading (kws : List (List Char)) (s : List Char) : Option (List Char) :=
  if pfx ("##").toList s then
    let r1 := s.drop 2
    let w := r1.takeWhile isPySpace
    if w.isEmpty then none
    else
      let r2 := r1.drop w.length
      match kws.find? (fun kw => ciPfx kw r2) with
      | none => none
      | some kw =>
        match wsNewlineSplit (r2.drop kw.length) with
        | none => none
        | some r4 =>
          some (match splitOnFirst ("##").toList r4 with
            | some (body, _) => body
            | none => r4)
  else none

/-- Leftmost section search for the heading patterns of the extractors. -/
def findSection (kws : List (List Char)) (content : List Char) :
    Option (List Char) :=
  searchO (tryHeading kws) content

/-- Heading alternatives of `_extract_next_steps`
(`extract-playbook-metadata.py`, line 256). -/
def nextStepsKws : List (List Char) :=
  [("next steps").toList, ("then").toList, ("workflow").toList, ("after").toList]

/-- Heading alternatives of `_extract_prerequisites`
(`extract-playbook-metadata.py`, line 282). -/
def prerequisitesKws : List (List Char) :=
  [("prerequisites").toList, ("before").toList, ("pre-start").toList]

/-- Embedding of `_extract_next_steps` (`extract-playbook-metadata.py`,
lines 250-275): reference tokens of the Next Steps section in first
occurrence order with duplicates removed, absent when the section is
missing or holds no token. -/
def extract_next_steps (content : List Char) : Option (List (List Char)) :=
  match findSection nextStepsKws content with
  | none => none
  | some body =>
    let u := dedupFirst (findPbRefs body)
    if u.isEmpty then none else some u

/-- Embedding of `_extract_prerequisites` (`extract-playbook-metadata.py`,
lines 277-301): reference tokens of the Prerequisites section in first
occurrence order with duplicates removed, absent when the section is
missing or holds no token. -/
def extract_prerequisites (content : List Char) : Option (List (List Char)) :=
  match findSection prerequisitesKws content with
  | none => none
  | some body =>
    let u := dedupFirst (findPbRefs body)
    if u.isEmpty then none else some u

/-!
Lemmas about the ordering, sorting and deduplication helpers.
-/

theorem lexLt_irrefl : ∀ l : List Char, lexLt l l = false := by
  intro l
  induction l with
  | nil => rfl
  | cons a as ih => simp [lexLt, ih]

theorem lexLt_ne {a b : List Char} (h : lexLt a b = true) : a ≠ b := by
  intro h0
  subst h0
  rw [lexLt_irrefl] at h
  exact Bool.false_ne_true h

theorem lexLt_trans :
    ∀ a b c : List Char, lexLt a b = true → lexLt b c = true → lexLt a c = true := by
  intro a
  induction a with
  | nil =>
    intro b c hab hbc
    cases b with
    | nil => exact hbc
    | cons y ys =>
      cases c with
      | nil => simp [lexLt] at hbc
      | cons z zs => simp [lexLt]
  | cons x xs ih =>
    intro b c hab hbc
    cases b with
    | nil => simp [lexLt] at hab
    | cons y ys =>
      cases c with
      | nil => simp [lexLt] at hbc
      | cons z zs =>
        simp only [lexLt] at hab hbc ⊢
        rcases lt_trichotomy x y with hxy | hxy | hxy
        · rcases lt_trichotomy y z with hyz | hyz | hyz
          · simp [lt_trans hxy hyz]
          · subst hyz; simp [hxy]
          · rw [if_neg (lt_asymm hyz), if_pos hyz] at hbc
            exact absurd hbc (by simp)
        · subst hxy
          rcases lt_trichotomy x z with hyz | hyz | hyz
          · simp [hyz]
          · subst hyz
            rw [if_neg (lt_irrefl x)] at hab hbc ⊢
            rw [if_neg (lt_irrefl x)] at hab hbc ⊢
            exact ih ys zs hab hbc
          · rw [if_neg (lt_asymm hyz), if_pos hyz] at hbc
            exact absurd hbc (by simp)
        · rw [if_neg (lt_asymm hxy), if_pos hxy] at hab
          exact absurd hab (by simp)

theorem lexLt_total :
    ∀ a b : List Char, a = b ∨ lexLt a b = true ∨ lexLt b a = true := by
  intro a
  induction a with
  | nil =>
    intro b
    cases b with
    | nil => exact Or.inl rfl
    | cons y ys => exact Or.inr (Or.inl (by simp [lexLt]))
  | cons x xs ih =>
    intro b
    cases b with
    | nil => exact Or.inr (Or.inr (by simp [lexLt]))
    | cons y ys =>
      rcases lt_trichotomy x y with hxy | hxy | hxy
      · exact Or.inr (Or.inl (by simp [lexLt, hxy]))
      · subst hxy
        rcases ih ys with h | h | h
        · exact Or.inl (by rw [h])
        · exact Or.inr (Or.inl (by simp [lexLt, lt_irrefl, h]))
        · exact Or.inr (Or.inr (by simp [lexLt, lt_irrefl, h]))
      · exact Or.inr (Or.inr (by simp [lexLt, hxy]))

theorem mem_insertLex {x y : List Char} :
    ∀ l : List (List Char), (y ∈ insertLex x l ↔ y = x ∨ y ∈ l) := by
  intro l
  induction l with
  | nil => simp [insertLex]
  | cons z zs ih =>
    by_cases h : lexLt x z = true
    · simp [insertLex, h]
    · simp only [insertLex, if_neg h, List.mem_cons, ih]
      tauto

theorem pairwise_insertLex {x : List Char} :
    ∀ l : List (List Char), l.Pairwise (fun a b => lexLt a b = true) → x ∉ l →
      (insertLex x l).Pairwise (fun a b => lexLt a b = true) := by
  intro l
  induction l with
  | nil => intro _ _; simp [insertLex]
  | cons z zs ih =>
    intro hp hx
    rw [List.pairwise_cons] at hp
    by_cases h : lexLt x z = true
    · rw [insertLex, if_pos h, List.pairwise_cons]
      constructor
      · intro b hb
        rcases List.mem_cons.mp hb with hb | hb
        · subst hb; exact h
        · exact lexLt_trans x z b h (hp.1 b hb)
      · exact List.pairwise_cons.mpr hp
    · have hxz : x ≠ z := fun he => hx (by rw [he]; exact List.mem_cons_self z zs)
      have hzx : lexLt z x = true := by
        rcases lexLt_total x z with h0 | h0 | h0
        · exact absurd h0 hxz
        · exact absurd h0 h
        · exact h0
      rw [insertLex, if_neg h, List.pairwise_cons]
      constructor
      · intro b hb
        rcases (mem_insertLex zs).mp hb with hb | hb
        · subst hb; exact hzx
        · exact hp.1 b hb
      · exact ih hp.2 (fun hm => hx (List.mem_cons_of_mem z hm))

theorem mem_sortLex {y : List Char} :
    ∀ l : List (List Char), (y ∈ sortLex l ↔ y ∈ l) := by
  intro l
  induction l with
  | nil => simp [sortLex]
  | cons x xs ih =>
    show y ∈ insertLex x (sortLex xs) ↔ _
    rw [mem_insertLex, ih]
    simp

theorem pairwise_sortLex :
    ∀ l : List (List Char), l.Nodup →
      (sortLex l).Pairwise (fun a b => lexLt a b = true) := by
  intro l
  induction l with
  | nil => intro _; simp [sortLex]
  | cons x xs ih =>
    intro hn
    rw [List.nodup_cons] at hn
    show (insertLex x (sortLex xs)).Pairwise _
    exact pairwise_insertLex (sortLex xs) (ih hn.2)
      (fun hm => hn.1 ((mem_sortLex xs).mp hm))

theorem dedupFirstAux_sublist :
    ∀ (l seen : List (List Char)), (dedupFirstAux seen l).Sublist l := by
  intro l
  induction l with
  | nil => intro seen; simp [dedupFirstAux]
  | cons x xs ih =>
    intro seen
    rw [dedupFirstAux]
    by_cases h : x ∈ seen
    · rw [if_pos h]
      exact List.Sublist.cons x (ih seen)
    · rw [if_neg h]
      exact List.Sublist.cons₂ x (ih (x :: seen))

theorem mem_dedupFirstAux {y : List Char} :
    ∀ (l seen : List (List Char)),
      (y ∈ dedupFirstAux seen l ↔ y ∈ l ∧ y ∉ seen) := by
  intro l
  induction l with
  | nil => intro seen; simp [dedupFirstAux]
  | cons x xs ih =>
    intro seen
    rw [dedupFirstAux]
    by_cases h : x ∈ seen
    · rw [if_pos h, ih]
      constructor
      · exact fun hy => ⟨List.mem_cons_of_mem x hy.1, hy.2⟩
      · rintro ⟨hy1, hy2⟩
        rcases List.mem_cons.mp hy1 with he | hm
        · exact absurd (he ▸ h) hy2
        · exact ⟨hm, hy2⟩
    · rw [if_neg h]
      rw [List.mem_cons, ih]
      constructor
      · rintro (he | ⟨hm, hs⟩)
        · exact ⟨by rw [he]; exact List.mem_cons_self x xs, by rw [he]; exact h⟩
        · constructor
          · exact List.mem_cons_of_mem x hm
          · intro hy; exact hs (List.mem_cons_of_mem x hy)
      · rintro ⟨hy1, hy2⟩
        rcases List.mem_cons.mp hy1 with he | hm
        · exact Or.inl he
        · by_cases hyx : y = x
          · exact Or.inl hyx
          · refine Or.inr ⟨hm, ?_⟩
            intro hs
            rcases List.mem_cons.mp hs with he | hs
            · exact hyx he
            · exact hy2 hs

theorem nodup_dedupFirstAux :
    ∀ (l seen : List (List Char)), (dedupFirstAux seen l).Nodup := by
  intro l
  induction l with
  | nil => intro seen; simp [dedupFirstAux]
  | cons x xs ih =>
    intro seen
    rw [dedupFirstAux]
    by_cases h : x ∈ seen
    · rw [if_pos h]; exact ih seen
    · rw [if_neg h, List.nodup_cons]
      refine ⟨?_, ih (x :: seen)⟩
      intro hm
      exact ((mem_dedupFirstAux xs (x :: seen)).mp hm).2 (List.mem_cons_self x seen)

theorem dedupFirst_sublist (l : List (List Char)) : (dedupFirst l).Sublist l :=
  dedupFirstAux_sublist l []

theorem mem_dedupFirst {y : List Char} (l : List (List Char)) :
    y ∈ dedupFirst l ↔ y ∈ l := by
  rw [dedupFirst, mem_dedupFirstAux]
  simp

theorem nodup_dedupFirst (l : List (List Char)) : (dedupFirst l).Nodup :=
  nodup_dedupFirstAux l []

theorem pairwise_firstOccIdx_dedupFirstAux :
    ∀ (l seen : List (List Char)),
      (dedupFirstAux seen l).Pairwise
        (fun x y => firstOccIdx x l < firstOccIdx y l) := by
  intro l
  induction l with
  | nil => intro seen; exact List.Pairwise.nil
  | cons a xs ih =>
    intro seen
    rw [dedupFirstAux]
    by_cases h : a ∈ seen
    · rw [if_pos h]
      refine (ih seen).imp_of_mem ?_
      intro u v hu hv huv
      have hu' := (mem_dedupFirstAux xs seen).mp hu
      have hv' := (mem_dedupFirstAux xs seen).mp hv
      have hua : ¬ a = u := fun he => hu'.2 (by rw [← he]; exact h)
      have hva : ¬ a = v := fun he => hv'.2 (by rw [← he]; exact h)
      rw [firstOccIdx, firstOccIdx, if_neg hua, if_neg hva]
      omega
    · rw [if_neg h]
      refine List.Pairwise.cons ?_ ((ih (a :: seen)).imp_of_mem ?_)
      · intro y hy
        have hy' := (mem_dedupFirstAux xs (a :: seen)).mp hy
        have hya : ¬ a = y := fun he =>
          hy'.2 (by rw [← he]; exact List.mem_cons_self a seen)
        rw [firstOccIdx, firstOccIdx, if_pos rfl, if_neg hya]
        omega
      · intro u v hu hv huv
        have hu' := (mem_dedupFirstAux xs (a :: seen)).mp hu
        have hv' := (mem_dedupFirstAux xs (a :: seen)).mp hv
        have hua : ¬ a = u := fun he =>
          hu'.2 (by rw [← he]; exact List.mem_cons_self a seen)
        have hva : ¬ a = v := fun he =>
          hv'.2 (by rw [← he]; exact List.mem_cons_self a seen)
        rw [firstOccIdx, firstOccIdx, if_neg hua, if_neg hva]
        omega

/-- The first-occurrence dedup lists its elements in strictly increasing
order of their first occurrence in the input; together with `Nodup` and
the membership equivalence this pins the output down uniquely, and a
last-occurrence dedup fails it. -/
theorem pairwise_firstOccIdx_dedupFirst (l : List (List Char)) :
    (dedupFirst l).Pairwise (fun x y => firstOccIdx x l < firstOccIdx y l) :=
  pairwise_firstOccIdx_dedupFirstAux l []

/-- Head of a newline split is the text before the first newline. -/
theorem lineSplit_head :
    ∀ content : List Char,
      (lineSplit content).head? = some (content.takeWhile (fun c => !(c == '\n'))) := by
  intro content
  induction content with
  | nil => rfl
  | cons c t ih =>
    by_cases h : c = '\n'
    · subst h
      simp [lineSplit, List.takeWhile]
    · rw [lineSplit, if_neg h]
      cases ht : lineSplit t with
      | nil => rw [ht] at ih; simp at ih
      | cons l ls =>
        rw [ht] at ih
        simp only [List.head?] at ih
        have hl : l = t.takeWhile (fun c => !(c == '\n')) := by
          injection ih
        have hc : (!(c == '\n')) = true := by simp [h]
        simp [List.takeWhile_cons, hc, hl]

/-- Concrete document used to witness the order-preservation claim. -/
def nextPrereqDoc : List Char :=
  ("## Next Steps\nuse /pb-b then /pb-a and /pb-b\n## Prerequisites\nneed /pb-c and /pb-c\n").toList

/-- C4: for every document text, next-steps and prerequisites extraction
return the references of their section with duplicates removed and in
first-occurrence order: the output is a duplicate-free sublist of the
match list with the same members, listed in strictly increasing order of
first-occurrence index, which determines it uniquely; related-commands
extraction returns the lexicographically sorted duplicate-free set of
all reference tokens of the text. -/
theorem reference_extraction_order_and_sorting :
    (∀ content : List Char,
      (extract_related_commands content).Pairwise (fun a b => lexLt a b = true) ∧
      (extract_related_commands content).Nodup ∧
      ∀ x, x ∈ extract_related_commands content ↔ x ∈ findPbRefs content) ∧
    (∀ content body refs, findSection nextStepsKws content = some body →
      extract_next_steps content = some refs →
      refs.Sublist (findPbRefs body) ∧ refs.Nodup ∧
        (∀ x, x ∈ refs ↔ x ∈ findPbRefs body) ∧
        refs.Pairwise (fun x y =>
          firstOccIdx x (findPbRefs body) < firstOccIdx y (findPbRefs body))) ∧
    (∀ content body refs, findSection prerequisitesKws content = some body →
      extract_prerequisites content = some refs →
      refs.Sublist (findPbRefs body) ∧ refs.Nodup ∧
        (∀ x, x ∈ refs ↔ x ∈ findPbRefs body) ∧
        refs.Pairwise (fun x y =>
          firstOccIdx x (findPbRefs body) < firstOccIdx y (findPbRefs body))) := by
  refine ⟨?_, ?_, ?_⟩
  · intro content
    have hp := pairwise_sortLex (dedupFirst (findPbRefs content))
      (nodup_dedupFirst (findPbRefs content))
    refine ⟨hp, hp.imp (fun h => lexLt_ne h), ?_⟩
    intro x
    rw [extract_related_commands, mem_sortLex, mem_dedupFirst]
  · intro content body refs h1 h2
    simp only [extract_next_steps, h1] at h2
    by_cases he : (dedupFirst (findPbRefs body)).isEmpty
    · rw [if_pos he] at h2; exact absurd h2 (by simp)
    · rw [if_neg he] at h2
      have hrefs : refs = dedupFirst (findPbRefs body) := by
        injection h2 with h2; exact h2.symm
      subst hrefs
      exact ⟨dedupFirst_sublist _, nodup_dedupFirst _,
        fun x => mem_dedupFirst _, pairwise_firstOccIdx_dedupFirst _⟩
  · intro content body refs h1 h2
    simp only [extract_prerequisites, h1] at h2
    by_cases he : (dedupFirst (findPbRefs body)).isEmpty
    · rw [if_pos he] at h2; exact absurd h2 (by simp)
    · rw [if_neg he] at h2
      have hrefs : refs = dedupFirst (findPbRefs body) := by
        injection h2 with h2; exact h2.symm
      subst hrefs
      exact ⟨dedupFirst_sublist _, nodup_dedupFirst _,
        fun x => mem_dedupFirst _, pairwise_firstOccIdx_dedupFirst _⟩

/-- Witness for the order-preservation theorem on a concrete document
holding both sections with duplicated references. -/
theorem reference_extraction_witness :
    (findSection nextStepsKws nextPrereqDoc =
        some ("use /pb-b then /pb-a and /pb-b\n").toList ∧
     extract_next_steps nextPrereqDoc =
        some [("/pb-b").toList, ("/pb-a").toList] ∧
     findSection prerequisitesKws nextPrereqDoc =
        some ("need /pb-c and /pb-c\n").toList ∧
     extract_prerequisites nextPrereqDoc = some [("/pb-c").toList]) ∧
    ([("/pb-b").toList, ("/pb-a").toList].Sublist
        (findPbRefs (("use /pb-b then /pb-a and /pb-b\n").toList)) ∧
     [("/pb-b").toList, ("/pb-a").toList].Nodup ∧
     [("/pb-b").toList, ("/pb-a").toList].Pairwise (fun x y =>
        firstOccIdx x (findPbRefs (("use /pb-b then /pb-a and /pb-b\n").toList)) <
          firstOccIdx y (findPbRefs (("use /pb-b then /pb-a and /pb-b\n").toList)))) ∧
    [("/pb-c").toList].Sublist (findPbRefs (("need /pb-c and /pb-c\n").toList)) :=
  ⟨⟨by decide, by decide, by decide, by decide⟩,
   ⟨(reference_extraction_order_and_sorting.2.1 nextPrereqDoc
       (("use /pb-b then /pb-a and /pb-b\n").toList)
       [("/pb-b").toList, ("/pb-a").toList]
       (by decide) (by decide)).1,
    (reference_extraction_order_and_sorting.2.1 nextPrereqDoc
       (("use /pb-b then /pb-a and /pb-b\n").toList)
       [("/pb-b").toList, ("/pb-a").toList]
       (by decide) (by decide)).2.1,
    (reference_extraction_order_and_sorting.2.1 nextPrereqDoc
       (("use /pb-b then /pb-a and /pb-b\n").toList)
       [("/pb-b").toList, ("/pb-a").toList]
       (by decide) (by decide)).2.2.2⟩,
   (reference_extraction_order_and_sorting.2.2 nextPrereqDoc
       (("need /pb-c and /pb-c\n").toList)
       [("/pb-c").toList]
       (by decide) (by decide)).1⟩

/-- Concrete non-hub document whose Related Commands section lists seven
references. -/
def sevenLinkDoc : List Char :=
  ("## Related Commands\n- `/pb-a`\n- `/pb-b`\n- `/pb-c`\n- `/pb-d`\n- `/pb-e`\n- `/pb-f`\n- `/pb-g`\n").toList

/-- C5 (amended): the conventions validator fails the related-commands
check exactly when the counted section links exceed five, or ten for hub
allow-list documents, and in particular fails a non-hub document with
seven links; the front-matter metadata validator of the evolution script
flags `TOO_MANY` exactly when the list holds more than five items, with no
hub exemption. -/
theorem related_commands_limit_checks :
    (∀ name content, validate_related_commands name content = ConvOutcome.fail ↔
        relatedLinkCount content > (if name ∈ hubCommands then 10 else 5)) ∧
    (∀ rel : List (List Char), evolveRelatedTooMany rel = true ↔ rel.length > 5) ∧
    validate_related_commands ("pb-x.md").toList sevenLinkDoc = ConvOutcome.fail := by
  refine ⟨?_, ?_, by decide⟩
  · intro name content
    unfold validate_related_commands
    by_cases hhub : name ∈ hubCommands
    · simp only [if_pos hhub]
      by_cases h0 : relatedLinkCount content = 0
      · simp [h0]
      · simp only [if_neg h0]
        by_cases h1 : relatedLinkCount content ≤ 10
        · simp [if_pos h1]; omega
        · simp [if_neg h1]; omega
    · simp only [if_neg hhub]
      by_cases h0 : relatedLinkCount content = 0
      · simp [h0]
      · simp only [if_neg h0]
        by_cases h1 : relatedLinkCount content ≤ 5
        · simp [if_pos h1]; omega
        · simp [if_neg h1]; omega
  · intro rel
    simp [evolveRelatedTooMany]

/-- Seven reference names, as they would appear in the front-matter
related-commands list of the hub document. -/
def sevenHubRefs : List (List Char) :=
  [("pb-a").toList, ("pb-b").toList, ("pb-c").toList, ("pb-d").toList,
   ("pb-e").toList, ("pb-f").toList, ("pb-g").toList]

/-- Counterexample to C5 as stated: the `TOO_MANY` check of the evolution
validator fires on a seven-item list although seven does not exceed the
ten-item hub limit, and the hub document is on the allow-list, so no
single validator implements a hub-exempt `TOO_MANY` rule. -/
theorem related_commands_hub_cx :
    evolveRelatedTooMany sevenHubRefs = true ∧
    ¬ sevenHubRefs.length > 10 ∧
    ("pb-patterns.md").toList ∈ hubCommands := by
  refine ⟨by decide, by decide, by decide⟩

/-- C6 (amended): the loader classifies a document as a skill file by its
first line only, stripped, matched against the four indicator patterns
each followed by a whitespace character. -/
theorem skill_classification_first_line :
    ∀ content firstLine, (lineSplit content).head? = some firstLine →
      (is_skill_file content = true ↔
        skillIndicators.any
          (fun p => matchIndicator p (pyStrip firstLine)) = true) := by
  intro content firstLine h
  rw [lineSplit_head content] at h
  have hf : firstLine = content.takeWhile (fun c => !(c == '\n')) := by
    injection h with h; exact h.symm
  subst hf
  exact Iff.rfl

/-- Witness for the skill-classification theorem on a concrete skill
document. -/
theorem skill_classification_witness :
    (lineSplit (("You are a careful reviewer\nBody\n").toList)).head? =
        some (("You are a careful reviewer").toList) ∧
    is_skill_file (("You are a careful reviewer\nBody\n").toList) = true :=
  ⟨by decide,
   (skill_classification_first_line (("You are a careful reviewer\nBody\n").toList)
     (("You are a careful reviewer").toList) (by decide)).mpr (by decide)⟩

/-- Document whose skill-pattern line is preceded by a blank line. -/
def skillCxDoc : List Char :=
  ("\nYou are helpful\n").toList

/-- Counterexample to C6 as stated: the first non-empty line of the
document matches the specification rule, yet the loader classifies the
document as a regular command because it inspects only the literal first
line, which is blank here. -/
theorem skill_first_nonempty_line_cx :
    is_skill_file skillCxDoc = false ∧ skillRuleSpec skillCxDoc = true := by
  refine ⟨by decide, by decide⟩

/-- C7: a reference in any of the three reference fields whose stripped
name is not a key of the command map always produces an
`invalid_reference` warning naming the reporting command and the
containing field. -/
theorem dangling_references_warned :
    ∀ (commands : List (List Char × RefMeta)) cmd m f ref,
      (cmd, m) ∈ commands → ref ∈ fieldRefs m f →
      pyLstripSlash ref ∉ commands.map Prod.fst →
      (⟨cmd, f, ref⟩ : RefWarning) ∈ validate_references commands := by
  intro commands cmd m f ref hmem href hdangle
  have hcmd : cmd ∈ commands.map Prod.fst :=
    List.mem_map.mpr ⟨(cmd, m), hmem, rfl⟩
  simp only [validate_references]
  apply List.mem_flatten.mpr
  refine ⟨refWarningsFor (commands.map Prod.fst) cmd m,
    List.mem_map.mpr ⟨(cmd, m), hmem, rfl⟩, ?_⟩
  cases f with
  | related =>
    refine List.mem_append.mpr (Or.inl (List.mem_append.mpr (Or.inl
      (List.mem_filterMap.mpr ⟨ref, href, ?_⟩))))
    rw [if_pos ⟨hdangle, fun he => hdangle (he ▸ hcmd)⟩]
  | nextSteps =>
    refine List.mem_append.mpr (Or.inl (List.mem_append.mpr (Or.inr
      (List.mem_filterMap.mpr ⟨ref, href, ?_⟩))))
    rw [if_pos hdangle]
  | prereqs =>
    refine List.mem_append.mpr (Or.inr (List.mem_filterMap.mpr ⟨ref, href, ?_⟩))
    rw [if_pos hdangle]

/-- Corpus of one command referencing a ghost command. -/
def ghostCorpus : List (List Char × RefMeta) :=
  [(("pb-a").toList,
    { related_commands := [("/pb-ghost").toList], next_steps := [], prerequisites := [] })]

/-- Witness for the dangling-reference theorem: the ghost reference yields
its warning on a concrete corpus. -/
theorem dangling_reference_witness :
    ((("pb-a").toList,
      ({ related_commands := [("/pb-ghost").toList], next_steps := [],
         prerequisites := [] } : RefMeta)) ∈ ghostCorpus ∧
     ("/pb-ghost").toList ∈ fieldRefs
        { related_commands := [("/pb-ghost").toList], next_steps := [],
          prerequisites := [] } RefField.related ∧
     pyLstripSlash (("/pb-ghost").toList) ∉ ghostCorpus.map Prod.fst) ∧
    (⟨("pb-a").toList, RefField.related, ("/pb-ghost").toList⟩ : RefWarning) ∈
      validate_references ghostCorpus :=
  ⟨⟨by decide, by decide, by decide⟩,
   dangling_references_warned ghostCorpus (("pb-a").toList)
     { related_commands := [("/pb-ghost").toList], next_steps := [],
       prerequisites := [] } RefField.related
     (("/pb-ghost").toList) (by decide) (by decide) (by decide)⟩

/-- C9: a related-commands reference whose stripped name equals the
reporting command never produces an `invalid_reference` warning, for any
command map. -/
theorem self_reference_exempt :
    ∀ (commands : List (List Char × RefMeta)) (cmd ref : List Char),
      pyLstripSlash ref = cmd →
      (⟨cmd, RefField.related, ref⟩ : RefWarning) ∉ validate_references commands := by
  intro commands cmd ref hself hmem
  simp only [validate_references] at hmem
  rcases List.mem_flatten.mp hmem with ⟨ws, hws, hw⟩
  rcases List.mem_map.mp hws with ⟨p, _, rfl⟩
  rcases List.mem_append.mp hw with h | h
  · rcases List.mem_append.mp h with h | h
    · rcases List.mem_filterMap.mp h with ⟨r, _, hr⟩
      by_cases hc : pyLstripSlash r ∉ commands.map Prod.fst ∧ pyLstripSlash r ≠ p.1
      · rw [if_pos hc] at hr
        injection hr with he
        injection he with h1 h2 h3
        exact hc.2 (by rw [h3, hself, h1])
      · rw [if_neg hc] at hr
        exact absurd hr (by simp)
    · rcases List.mem_filterMap.mp h with ⟨r, _, hr⟩
      by_cases hc : pyLstripSlash r ∉ commands.map Prod.fst
      · rw [if_pos hc] at hr
        injection hr with he
        injection he with h1 h2 h3
        exact absurd h2 (by simp)
      · rw [if_neg hc] at hr
        exact absurd hr (by simp)
  · rcases List.mem_filterMap.mp h with ⟨r, _, hr⟩
    by_cases hc : pyLstripSlash r ∉ commands.map Prod.fst
    · rw [if_pos hc] at hr
      injection hr with he
      injection he with h1 h2 h3
      exact absurd h2 (by simp)
    · rw [if_neg hc] at hr
      exact absurd hr (by simp)

/-- Corpus of one command referencing itself. -/
def selfRefCorpus : List (List Char × RefMeta) :=
  [(("pb-a").toList,
    { related_commands := [("/pb-a").toList], next_steps := [], prerequisites := [] })]

/-- Witness for the self-reference exemption on a concrete corpus. -/
theorem self_reference_witness :
    pyLstripSlash (("/pb-a").toList) = ("pb-a").toList ∧
    (⟨("pb-a").toList, RefField.related, ("/pb-a").toList⟩ : RefWarning) ∉
      validate_references selfRefCorpus :=
  ⟨by decide,
   self_reference_exempt selfRefCorpus (("pb-a").toList) (("/pb-a").toList) (by decide)⟩

/-!
Embedding of the remaining field extractors of
`scripts/extract-playbook-metadata.py`.
-/

/-- Characters allowed in the heading group pattern: anything except a
hash or a newline. -/
def notHashNl (c : Char) : Bool :=
  !(c == '#') && !(c == '\n')

/-- Backtracking case of the heading patterns: the greedy whitespace run
after the hashes is shortened to the last whitespace character that is not
a newline, from which the nonempty group is read. -/
def hashGroupBacktrack (w rest : List Char) : Option (List Char × List Char) :=
  let r1 := (w.drop 1).reverse.dropWhile (· == '\n')
  if r1.isEmpty then none
  else
    let tailK := rest.drop r1.length
    let g := tailK.takeWhile notHashNl
    some (g, tailK.drop g.length)

/-- Greedy whitespace run then nonempty group of non-hash non-newline
characters, with the backtracking of the Python patterns when the
character after the run is a hash or the end of text. -/
def hashGroup (rest : List Char) : Option (List Char × List Char) :=
  let w := rest.takeWhile isPySpace
  if w.isEmpty then none
  else
    match rest.drop w.length with
    | c :: t =>
      if c == '#' then hashGroupBacktrack w rest
      else
        let g := (c :: t).takeWhile notHashNl
        some (g, (c :: t).drop g.length)
    | [] => hashGroupBacktrack w rest

/-- Anchored matcher for the title pattern: one hash at a line start,
whitespace, then the heading group. -/
def tryTitle (s : List Char) : Option (List Char) :=
  match s with
  | '#' :: rest => (hashGroup rest).map Prod.fst
  | _ => none

/-- Matcher for the emphasis markers removed from titles. -/
def tryEmph (s : List Char) : Option (List Char) :=
  if pfx ("**").toList s then some (s.drop 2)
  else if pfx ("__").toList s then some (s.drop 2)
  else none

/-- Embedding of `_extract_title` (`extract-playbook-metadata.py`, lines
173-181): first heading-one line, stripped, with double-asterisk and
double-underscore markers removed. -/
def extract_title (content : List Char) : Option (List Char) :=
  match searchLines tryTitle true content with
  | none => none
  | some g =>
    let t := pyStrip g
    some (subAllF tryEmph [] t.length t)

/-- Anchored matcher for the purpose splitter: a newline-dashes-newline
separator is preferred over a blank line at each position. -/
def splitDelim : List Char → Option (List Char × List Char)
  | [] => none
  | s@(c :: t) =>
    if pfx ("\n---\n").toList s then some ([], s.drop 5)
    else if pfx ("\n\n").toList s then some ([], s.drop 2)
    else match splitDelim t with
      | some (a, b) => some (c :: a, b)
      | none => none

/-- Embedding of `_extract_purpose` (`extract-playbook-metadata.py`,
lines 183-194): the part between the first and second separator,
stripped; absent when there is no separator, the part is empty, or the
part starts a heading; truncated to its first line. -/
def extract_purpose (content : List Char) : Option (List Char) :=
  match splitDelim content with
  | none => none
  | some (_, r1) =>
    let p1 := match splitDelim r1 with
      | some (b, _) => b
      | none => r1
    match pyStrip p1 with
    | [] => none
    | c :: t =>
      if c == '#' then none
      else some ((c :: t).takeWhile (fun d => !(d == '\n')))

/-- Tier letters accepted by the character classes of the tier
patterns. -/
def tierClassChar (c : Char) : Bool :=
  c == 'X' || c == 'S' || c == 'M' || c == 'L'

/-- One step of the tier item alternation: a single tier letter if
present, otherwise the empty capture. -/
def matchTierItem : List Char → List Char × List Char
  | [] => ([], [])
  | c :: t => if tierClassChar c then ([c], t) else ([], c :: t)

/-- Comma repetitions of the explicit tier marker pattern, keeping the
last capture, as Python `findall` does for a quantified group. -/
def tierReps (last : List Char) : Nat → List Char → List Char × List Char
  | 0, s => (last, s)
  | fuel + 1, s =>
    match s.dropWhile isPySpace with
    | ',' :: t =>
      let d2 := t.dropWhile isPySpace
      let (g, r) := matchTierItem d2
      tierReps g fuel r
    | _ => (last, s)

/-- Anchored matcher for the explicit tier marker pattern, returning the
two captures and the remainder after the match. -/
def tryTier1 (s : List Char) : Option ((List Char × List Char) × List Char) :=
  match s with
  | c :: t =>
    if (c == 'T' || c == 't') && pfx ("ier:").toList t then
      let r1 := (t.drop 4).dropWhile isPySpace
      let r2 := match r1 with
        | '[' :: t1 => t1
        | _ => r1
      let (g1, r3) := matchTierItem r2
      let (g2, r4) := tierReps [] r3.length r3
      let r5 := match r4 with
        | ']' :: t2 => t2
        | _ => r4
      some ((g1, g2), r5)
    else none
  | [] => none

/-- Anchored matcher for a tier table row: a pipe, whitespace, a bolded
tier letter, whitespace, then the closing pipe, which the match
consumes. -/
def tryTier2 (s : List Char) : Option (List Char × List Char) :=
  match s with
  | '|' :: t =>
    let d := t.dropWhile isPySpace
    if pfx ("**").toList d then
      match d.drop 2 with
      | c :: t2 =>
        if tierClassChar c && pfx ("**").toList t2 then
          match (t2.drop 2).dropWhile isPySpace with
          | '|' :: t3 => some ([c], t3)
          | _ => none
        else none
      | [] => none
    else none
  | _ => none

/-- Word-boundary test on the character before a match position. -/
def wordBoundaryBefore : Option Char → Bool
  | none => true
  | some c => !(isWordChar c)

/-- Case-insensitive whole-word test anchored at a position: the
lowercase pattern matches and the following character, if any, is not a
word character. -/
def tryKw (kw s : List Char) : Bool :=
  ciPfx kw s &&
    (match s.drop kw.length with
     | c :: _ => !(isWordChar c)
     | [] => true)

/-- Existence scan with the previous character tracked for word-boundary
tests. -/
def scanPrev (f : Option Char → List Char → Bool) : Option Char → List Char → Bool
  | _, [] => false
  | prev, s@(c :: t) => f prev s || scanPrev f (some c) t

/-- Case-insensitive word search with boundaries on both sides, the
semantics of a backslash-b delimited alternative under `re.IGNORECASE`. -/
def hasKeyword (kws : List (List Char)) (content : List Char) : Bool :=
  scanPrev (fun prev s => wordBoundaryBefore prev && kws.any (fun kw => tryKw kw s))
    none content

/-- Complexity keywords mapped to the extra-small tier
(`extract-playbook-metadata.py`, lines 220-225). -/
def xsKeywords : List (List Char) :=
  [("simple").toList, ("straightforward").toList, ("trivial").toList, ("minimal").toList]

/-- Complexity keywords mapped to the medium tier (line 226). -/
def mKeywords : List (List Char) :=
  [("medium").toList, ("moderate").toList, ("standard").toList]

/-- Complexity keywords mapped to the large tier (lines 228-231). -/
def lKeywords : List (List Char) :=
  [("large").toList, ("complex").toList, ("substantial").toList, ("significant").toList]

/-- Embedding of `_extract_tier` (`extract-playbook-metadata.py`, lines
196-235): the union of the explicit-marker captures that pass the
tier-name membership check, the table-row captures passing the same
check, and the keyword classes; returned in the fixed priority order,
absent when no signal fired. -/
def extract_tier (content : List Char) : Option (List (List Char)) :=
  let items := ((scanAllF tryTier1 content.length content).map
    (fun g => [g.1, g.2])).flatten
  let rows := scanAllF tryTier2 content.length content
  let hasXS := items.any (fun i => i = ("XS").toList) ||
    rows.any (fun r => r = ("XS").toList) || hasKeyword xsKeywords content
  let hasS := items.any (fun i => i = ("S").toList) ||
    rows.any (fun r => r = ("S").toList)
  let hasM := items.any (fun i => i = ("M").toList) ||
    rows.any (fun r => r = ("M").toList) || hasKeyword mKeywords content
  let hasL := items.any (fun i => i = ("L").toList) ||
    rows.any (fun r => r = ("L").toList) || hasKeyword lKeywords content
  let result :=
    (if hasXS then [("XS").toList] else []) ++
    (if hasS then [("S").toList] else []) ++
    (if hasM then [("M").toList] else []) ++
    (if hasL then [("L").toList] else [])
  if result.isEmpty then none else some result

/-- Heading keyword of the When to Use section. -/
def whenToUseKw : List (List Char) :=
  [("when to use").toList]

/-- Case-sensitive whole-word test at a position, for patterns applied to
already lowercased text. -/
def tryWordAt (w s : List Char) : Bool :=
  pfx w s &&
    (match s.drop w.length with
     | c :: _ => !(isWordChar c)
     | [] => true)

/-- Word search with boundaries on both sides over lowercased text. -/
def hasWordIn (ws : List (List Char)) (content : List Char) : Bool :=
  scanPrev (fun prev s => wordBoundaryBefore prev && ws.any (fun w => tryWordAt w s))
    none content

/-- Same-line forward search for the second word of a dot-star gap
pattern; the search never crosses a newline, the boundary before the
word is optional, and the boundary after it is always required. -/
def lineSearchWord (needB2 : Bool) (w2 : List Char) : Option Char → List Char → Bool
  | _, [] => false
  | prev, s@(c :: t) =>
    ((!needB2 || wordBoundaryBefore prev) && tryWordAt w2 s) ||
    (if c == '\n' then false else lineSearchWord needB2 w2 (some c) t)

/-- Gap pattern of the frequency vocabulary: first word with a leading
boundary and an optional trailing boundary, any non-newline characters,
then the second word with an optional leading boundary and a trailing
boundary. -/
def gapPattern (w1 : List Char) (b1after : Bool) (w2 : List Char) (b2before : Bool)
    (content : List Char) : Bool :=
  scanPrev (fun prev s =>
    wordBoundaryBefore prev && pfx w1 s &&
      (let rest := s.drop w1.length
       (!b1after ||
         (match rest with
          | c :: _ => !(isWordChar c)
          | [] => true)) &&
       lineSearchWord b2before w2 (w1.getLastD ' ') rest))
    none content

/-- Embedding of `_extract_frequency` (`extract-playbook-metadata.py`,
lines 303-335): the When to Use section body, lowercased, is tested
against the frequency vocabulary in fixed priority order; a missing
section or no match defaults to as-needed. -/
def extract_frequency (content : List Char) : List Char :=
  match findSection whenToUseKw content with
  | none => ("as-needed").toList
  | some body =>
    let t := body.map Char.toLower
    if hasWordIn [("daily").toList, ("everyday").toList] t then ("daily").toList
    else if hasWordIn [("weekly").toList, ("week").toList] t then ("weekly").toList
    else if hasWordIn [("start of feature").toList] t ||
        gapPattern (("start of").toList) true (("feature").toList) true t ||
        hasWordIn [("beginning of feature").toList] t then ("start-of-feature").toList
    else if hasWordIn [("per iteration").toList, ("each iteration").toList,
        ("every iteration").toList] t then ("per-iteration").toList
    else if hasWordIn [("per pr").toList] t ||
        gapPattern (("before").toList) false (("pr").toList) false t ||
        gapPattern (("each").toList) false (("pr").toList) false t then ("per-pr").toList
    else if hasWordIn [("release").toList, ("pre-release").toList,
        ("deployment").toList] t then ("pre-release").toList
    else if hasWordIn [("incident").toList, ("hotfix").toList,
        ("emergency").toList] t then ("on-incident").toList
    else if hasWordIn [("one-time").toList, ("initial setup").toList,
        ("first time").toList] t then ("one-time").toList
    else ("as-needed").toList

/-- Anchored matcher for the arrow decision pattern: a nonempty
arrow-free newline-free condition read non-greedily, optional whitespace,
the arrow, optional whitespace, an optional use keyword, then a reference
token; returns the condition capture, the token, and the remainder. -/
def tryArrow (s : List Char) : Option ((List Char × List Char) × List Char) :=
  match splitOnFirst [Char.ofNat 8594] s with
  | none => none
  | some (pre, post) =>
    if pre.isEmpty then none
    else
      let run := (pre.reverse.takeWhile isPySpace).length
      let j := max 1 (pre.length - run)
      let g := pre.take j
      if g.any (fun c => c == '\n') then none
      else
        let rd := post.dropWhile isPySpace
        let attempt1 :=
          if ciPfx ("use").toList rd then
            match rd.drop 3 with
            | c :: _ =>
              if isPySpace c then tryPbRef ((rd.drop 3).dropWhile isPySpace)
              else none
            | [] => none
          else none
        match attempt1 with
        | some (tok, rest) => some ((g, tok), rest)
        | none =>
          match tryPbRef rd with
          | some (tok, rest) => some ((g, tok), rest)
          | none => none

/-- Anchored matcher for the use-when conditional pattern: the use
keyword, whitespace, when or if, a colon, then the rest of a line with
the whitespace backtracking of the Python pattern. -/
def tryUseWhen (s : List Char) : Option (List Char × List Char) :=
  if ciPfx ("use").toList s then
    match s.drop 3 with
    | c :: _ =>
      if isPySpace c then
        let r1 := (s.drop 3).dropWhile isPySpace
        let kwlen :=
          if ciPfx ("when").toList r1 then some 4
          else if ciPfx ("if").toList r1 then some 2
          else none
        match kwlen with
        | some n =>
          match r1.drop n with
          | ':' :: r2 =>
            let m := (r2.takeWhile isPySpace).length
            if m < r2.length then
              let g := (r2.drop m).takeWhile (fun d => !(d == '\n'))
              some (g, (r2.drop m).drop g.length)
            else
              let rv := r2.reverse.dropWhile (· == '\n')
              if rv.isEmpty then none
              else
                let g := (r2.drop (rv.length - 1)).takeWhile (fun d => !(d == '\n'))
                some (g, (r2.drop (rv.length - 1)).drop g.length)
          | _ => none
        | none => none
      else none
    | [] => none
  else none

/-- Decimal digits of a natural number, fueled for computability. -/
def natDigitsAux : Nat → Nat → List Char
  | 0, _ => []
  | fuel + 1, n =>
    if n < 10 then [Char.ofNat (48 + n)]
    else natDigitsAux fuel (n / 10) ++ [Char.ofNat (48 + n % 10)]

/-- Decimal rendering of a natural number. -/
def natDecimal (n : Nat) : List Char :=
  natDigitsAux (n + 1) n

/-- Synthetic key for a use-when conditional, numbered by the current
dictionary size. -/
def useWhenKey (n : Nat) : List Char :=
  ("use_when_").toList ++ natDecimal n

/-- Embedding of `_extract_decision_context`
(`extract-playbook-metadata.py`, lines 337-367): arrow pairs anywhere in
the text keyed by the stripped condition, then use-when conditionals of
the When to Use section keyed synthetically; absent when the mapping is
empty. -/
def extract_decision_context (content : List Char) :
    Option (List (List Char × List Char)) :=
  let arrows := scanAllF tryArrow content.length content
  let d1 := arrows.foldl
    (fun d (p : List Char × List Char) => updateAssoc d (pyStrip p.1) p.2) []
  let d2 := match findSection whenToUseKw content with
    | none => d1
    | some body =>
      let conds := scanAllF tryUseWhen body.length body
      conds.foldl (fun d c => updateAssoc d (useWhenKey d.length) (pyStrip c)) d1
  if d2.isEmpty then none else some d2

/-- Anchored matcher for a level-two section heading at a line start. -/
def trySection (s : List Char) : Option (List Char × List Char) :=
  match s with
  | '#' :: '#' :: rest => hashGroup rest
  | _ => none

/-- Collapse of maximal whitespace runs to single hyphens, fueled for
computability. -/
def collapseWsF : Nat → List Char → List Char
  | 0, s => s
  | _ + 1, [] => []
  | fuel + 1, c :: t =>
    if isPySpace c then '-' :: collapseWsF fuel (t.dropWhile isPySpace)
    else c :: collapseWsF fuel t

/-- Slugification of a section name: lowercase, keep word characters,
whitespace and hyphens, then collapse whitespace runs to hyphens. -/
def slugify (sec : List Char) : List Char :=
  let kept := (sec.map Char.toLower).filter
    (fun c => isWordChar c || isPySpace c || c == '-')
  collapseWsF kept.length kept

/-- Embedding of `_extract_sections` (`extract-playbook-metadata.py`,
lines 369-381): all level-two headings in order, slugified. -/
def extract_sections (content : List Char) : List (List Char) :=
  (scanLinesF trySection content.length true content).map slugify

/-- Embedding of `_extract_has_examples` (line 383): presence of a fenced
code marker. -/
def extract_has_examples (content : List Char) : Bool :=
  occursIn ("```").toList content

/-- Embedding of `_extract_has_checklist` (line 387): presence of an
opening bracket, optional whitespace, then a closing bracket. -/
def extract_has_checklist (content : List Char) : Bool :=
  (searchO (fun s =>
    match s with
    | '[' :: t =>
      match t.dropWhile isPySpace with
      | ']' :: _ => some ()
      | _ => none
    | _ => none) content).isSome

/-- Truthiness of an optional string, as Python sees it. -/
def optionTruthy : Option (List Char) → Bool
  | none => false
  | some s => !s.isEmpty

/-- Truthiness of an optional string list. -/
def optListTruthy : Option (List (List Char)) → Bool
  | none => false
  | some l => !l.isEmpty

/-- Truthiness of an optional mapping. -/
def optPairsTruthy : Option (List (List Char × List Char)) → Bool
  | none => false
  | some l => !l.isEmpty

/-- Optional fields excluded from the average when their score is zero
(`extract-playbook-metadata.py`, line 461). -/
def optionalConfidenceFields : List (List Char) :=
  [("next_steps").toList, ("prerequisites").toList, ("decision_context").toList]

/-- Embedding of `_calculate_confidence_scores`
(`extract-playbook-metadata.py`, lines 391-449): one score per field in
insertion order, from the fixed table of the source. -/
def calculate_confidence_scores (command category : List Char)
    (title purpose : Option (List Char)) (tier : Option (List (List Char)))
    (related : List (List Char)) (next prereq : Option (List (List Char)))
    (frequency : List Char) (decision : Option (List (List Char × List Char)))
    (sections : List (List Char)) (content : List Char) :
    List (List Char × ℚ) :=
  [(("command").toList, if !command.isEmpty then 1 else 0),
   (("title").toList, if optionTruthy title then 1 else 0),
   (("category").toList, if !category.isEmpty then 1 else 0),
   (("purpose").toList, if optionTruthy purpose then 95/100 else 0),
   (("tier").toList,
     if optListTruthy tier then
       if occursIn ("Tier:").toList content then 95/100
       else if occursIn ("##").toList content then 85/100
       else 75/100
     else 0),
   (("related_commands").toList, if !related.isEmpty then 95/100 else 0),
   (("next_steps").toList,
     if optListTruthy next then
       if occursIn ("Next Steps").toList content then 90/100 else 80/100
     else 0),
   (("prerequisites").toList, if optListTruthy prereq then 85/100 else 0),
   (("frequency").toList,
     if frequency ≠ ("as-needed").toList then 85/100 else 60/100),
   (("decision_context").toList, if optPairsTruthy decision then 70/100 else 0),
   (("sections").toList, if !sections.isEmpty then 1 else 0),
   (("has_examples").toList, 1),
   (("has_checklist").toList, 1)]

/-- Embedding of `_calculate_average_confidence`
(`extract-playbook-metadata.py`, lines 451-468): the mean of the scores
after dropping optional fields whose score is not positive. -/
def calculate_average_confidence (scores : List (List Char × ℚ)) : ℚ :=
  if scores.isEmpty then 0
  else
    let relevant := scores.filterMap
      (fun fs => if fs.1 ∉ optionalConfidenceFields ∨ fs.2 > 0 then some fs.2 else none)
    if relevant.isEmpty then 0
    else relevant.sum / relevant.length

/-- Score lookup by field name. -/
def lookupScore (d : List (List Char × ℚ)) (k : List Char) : Option ℚ :=
  match d with
  | [] => none
  | (k0, v) :: rest => if k0 = k then some v else lookupScore rest k

/-- One extracted metadata record, with the fields of the dictionary
built by `_extract_command_metadata` (`extract-playbook-metadata.py`,
lines 136-171), including the extraction timestamp. -/
structure CommandMeta where
  command : List Char
  category : List Char
  title : Option (List Char)
  purpose : Option (List Char)
  tier : Option (List (List Char))
  related_commands : List (List Char)
  next_steps : Option (List (List Char))
  prerequisites : Option (List (List Char))
  frequency : List Char
  decision_context : Option (List (List Char × List Char))
  sections : List (List Char)
  has_examples : Bool
  has_checklist : Bool
  source_file : List Char
  extraction_date : List Char
  extractor_version : List Char
  confidence_scores : List (List Char × ℚ)
  average_confidence : ℚ
deriving DecidableEq, Repr

/-- Embedding of `_extract_command_metadata`
(`extract-playbook-metadata.py`, lines 136-171).  The wall-clock reading
taken by the source through `datetime.now` is an explicit argument, as
are the file path and the path-derived command name and category. -/
def extract_command_metadata (extractionDate sourceFile command category
    content : List Char) : CommandMeta :=
  let title := extract_title content
  let purpose := extract_purpose content
  let tier := extract_tier content
  let related := extract_related_commands content
  let next := extract_next_steps content
  let prereq := extract_prerequisites content
  let freq := extract_frequency content
  let dec := extract_decision_context content
  let secs := extract_sections content
  let scores := calculate_confidence_scores command category title purpose tier
    related next prereq freq dec secs content
  { command := command
    category := category
    title := title
    purpose := purpose
    tier := tier
    related_commands := related
    next_steps := next
    prerequisites := prereq
    frequency := freq
    decision_context := dec
    sections := secs
    has_examples := extract_has_examples content
    has_checklist := extract_has_checklist content
    source_file := sourceFile
    extraction_date := extractionDate
    extractor_version := ("1.0").toList
    confidence_scores := scores
    average_confidence := calculate_average_confidence scores }

/-!
Theorems about the extractors: the explicit tier marker bug, determinism
modulo the timestamp, and the confidence bounds.
-/

/-- Document containing the explicit marker and the complexity keyword of
the first example scenario. -/
def tierBugDoc : List Char :=
  ("Tier: [XS, M]\n\nThis is a complex task.\n").toList

/-- C1: evaluation of the tier extractor at the failing input of the
claim.  The explicit marker contributes nothing, because the character
class in the marker pattern captures single characters, the capture X is
discarded by the tier-name membership check, and the comma repetition
never reaches M; only the keyword class fires, so the result is the
large tier alone while the marker confidence of the claim is still
assigned. -/
theorem tier_explicit_marker_bug :
    extract_tier tierBugDoc = some [("L").toList] ∧
    (extract_command_metadata (("2026-01-01T00:00:00+00:00").toList)
        (("commands/core/pb-x.md").toList) (("pb-x").toList) (("core").toList)
        tierBugDoc).tier = some [("L").toList] ∧
    lookupScore (extract_command_metadata (("2026-01-01T00:00:00+00:00").toList)
        (("commands/core/pb-x.md").toList) (("pb-x").toList) (("core").toList)
        tierBugDoc).confidence_scores (("tier").toList) = some (95/100 : ℚ) ∧
    ¬ extract_tier tierBugDoc =
        some [("XS").toList, ("M").toList, ("L").toList] := by
  refine ⟨by decide, by decide, by rfl, by decide⟩

/-- Document used for the determinism counterexample. -/
def timestampCxDoc : List Char :=
  ("# Title\n\nPurpose line.\n").toList

/-- Counterexample to C2 as stated: two runs of the per-document
extraction on the same unchanged text, at two different clock readings,
produce records that are not byte-identical, because the record embeds
the extraction timestamp. -/
theorem extraction_timestamp_cx :
    extract_command_metadata (("2026-01-01T00:00:00+00:00").toList)
        (("commands/core/pb-x.md").toList) (("pb-x").toList) (("core").toList)
        timestampCxDoc ≠
      extract_command_metadata (("2026-01-02T00:00:00+00:00").toList)
        (("commands/core/pb-x.md").toList) (("pb-x").toList) (("core").toList)
        timestampCxDoc := by
  intro h
  exact absurd (congrArg CommandMeta.extraction_date h) (by decide)

/-- C2 (amended): extraction is deterministic apart from the embedded
extraction timestamp.  For any two clock readings and the same path and
text, the confidence scores, the average confidence, and the whole record
with the extraction date erased are identical. -/
theorem extraction_deterministic_modulo_timestamp :
    ∀ (date1 date2 sourceFile command category content : List Char),
      (extract_command_metadata date1 sourceFile command category
          content).confidence_scores =
        (extract_command_metadata date2 sourceFile command category
          content).confidence_scores ∧
      (extract_command_metadata date1 sourceFile command category
          content).average_confidence =
        (extract_command_metadata date2 sourceFile command category
          content).average_confidence ∧
      { extract_command_metadata date1 sourceFile command category content with
          extraction_date := [] } =
        { extract_command_metadata date2 sourceFile command category content with
          extraction_date := [] } := by
  intro date1 date2 sourceFile command category content
  exact ⟨rfl, rfl, rfl⟩

/-- Pointwise agreement of the positive-score filter of the source with
the not-exactly-zero filter of the claim, on nonnegative scores. -/
theorem relevant_filter_eq :
    ∀ l : List (List Char × ℚ), (∀ fs ∈ l, 0 ≤ fs.2) →
      l.filterMap (fun fs =>
          if fs.1 ∉ optionalConfidenceFields ∨ fs.2 > 0 then some fs.2 else none) =
        l.filterMap (fun fs =>
          if fs.1 ∈ optionalConfidenceFields ∧ fs.2 = 0 then none else some fs.2) := by
  intro l
  induction l with
  | nil => intro _; rfl
  | cons fs rest ih =>
    intro h
    have hfs : 0 ≤ fs.2 := h fs (List.mem_cons_self fs rest)
    have hrest := ih (fun x hx => h x (List.mem_cons_of_mem fs hx))
    have hcond : (fs.1 ∉ optionalConfidenceFields ∨ fs.2 > 0) ↔
        ¬ (fs.1 ∈ optionalConfidenceFields ∧ fs.2 = 0) := by
      constructor
      · rintro (hn | hp) ⟨hin, hz⟩
        · exact hn hin
        · rw [hz] at hp; exact lt_irrefl 0 hp
      · intro hn
        by_cases hin : fs.1 ∈ optionalConfidenceFields
        · refine Or.inr ?_
          rcases lt_or_eq_of_le hfs with hp | hz
          · exact hp
          · exact absurd ⟨hin, hz.symm⟩ hn
        · exact Or.inl hin
    simp only [List.filterMap_cons]
    by_cases hc : fs.1 ∉ optionalConfidenceFields ∨ fs.2 > 0
    · rw [if_pos hc, if_neg (hcond.mp hc), hrest]
    · rw [if_neg hc, if_pos (by by_contra hn; exact hc (hcond.mpr hn)), hrest]

/-- Mean of a nonempty list with entries in the unit interval stays in
the unit interval. -/
theorem mean_bounds (l : List ℚ) (hne : l ≠ []) (h : ∀ x ∈ l, 0 ≤ x ∧ x ≤ 1) :
    0 ≤ l.sum / l.length ∧ l.sum / l.length ≤ 1 := by
  have hlen : 0 < (l.length : ℚ) := by
    exact_mod_cast List.length_pos.mpr hne
  constructor
  · exact div_nonneg (List.sum_nonneg (fun x hx => (h x hx).1)) (le_of_lt hlen)
  · rw [div_le_one hlen]
    calc l.sum ≤ l.length • (1 : ℚ) :=
          List.sum_le_card_nsmul l 1 (fun x hx => (h x hx).2)
      _ = l.length := by simp

/-- C8: every per-field confidence score lies in the unit interval, the
average equals the mean of the scores after excluding an optional field
exactly when its score is zero, and the average lies in the unit
interval. -/
theorem confidence_bounds_and_average :
    ∀ (command category : List Char) (title purpose : Option (List Char))
      (tier : Option (List (List Char))) (related : List (List Char))
      (next prereq : Option (List (List Char))) (frequency : List Char)
      (decision : Option (List (List Char × List Char)))
      (sections : List (List Char)) (content : List Char)
      (scores : List (List Char × ℚ)),
      scores = calculate_confidence_scores command category title purpose tier
        related next prereq frequency decision sections content →
      (∀ fs ∈ scores, 0 ≤ fs.2 ∧ fs.2 ≤ 1) ∧
      calculate_average_confidence scores =
        (scores.filterMap (fun fs =>
          if fs.1 ∈ optionalConfidenceFields ∧ fs.2 = 0 then none
          else some fs.2)).sum /
        (scores.filterMap (fun fs =>
          if fs.1 ∈ optionalConfidenceFields ∧ fs.2 = 0 then none
          else some fs.2)).length ∧
      0 ≤ calculate_average_confidence scores ∧
      calculate_average_confidence scores ≤ 1 := by
  intro command category title purpose tier related next prereq frequency
    decision sections content scores hs
  have hmem : ∀ fs ∈ scores, 0 ≤ fs.2 ∧ fs.2 ≤ 1 := by
    subst hs
    intro fs hfs
    simp only [calculate_confidence_scores, List.mem_cons,
      List.not_mem_nil, or_false] at hfs
    rcases hfs with h|h|h|h|h|h|h|h|h|h|h|h|h <;> subst h <;>
      constructor <;> dsimp only <;> first
      | (split_ifs <;> norm_num)
      | norm_num
  have hout : scores = calculate_confidence_scores command category title
      purpose tier related next prereq frequency decision sections content := hs
  have hnonnil : scores ≠ [] := by rw [hout]; simp [calculate_confidence_scores]
  have hone : ((("has_examples").toList, (1 : ℚ))) ∈ scores := by
    rw [hout]; simp [calculate_confidence_scores]
  set relevant := scores.filterMap (fun fs =>
    if fs.1 ∉ optionalConfidenceFields ∨ fs.2 > 0 then some fs.2 else none) with hrel
  have hrone : (1 : ℚ) ∈ relevant := by
    rw [hrel]
    refine List.mem_filterMap.mpr ⟨((("has_examples").toList, (1 : ℚ))), hone, ?_⟩
    rw [if_pos (Or.inl (by decide))]
  have hrne : relevant ≠ [] := List.ne_nil_of_mem hrone
  have hrbound : ∀ x ∈ relevant, 0 ≤ x ∧ x ≤ 1 := by
    intro x hx
    rw [hrel] at hx
    rcases List.mem_filterMap.mp hx with ⟨fs, hfs, hfx⟩
    by_cases hc : fs.1 ∉ optionalConfidenceFields ∨ fs.2 > 0
    · rw [if_pos hc] at hfx
      injection hfx with hfx
      exact hfx ▸ hmem fs hfs
    · rw [if_neg hc] at hfx
      exact absurd hfx (by simp)
  have havg : calculate_average_confidence scores = relevant.sum / relevant.length := by
    rw [calculate_average_confidence, if_neg (by simp [hnonnil]), if_neg (by simp [hrne])]
  have hfeq : relevant = scores.filterMap (fun fs =>
      if fs.1 ∈ optionalConfidenceFields ∧ fs.2 = 0 then none else some fs.2) := by
    rw [hrel]
    exact relevant_filter_eq scores (fun fs hfs => (hmem fs hfs).1)
  have hbounds := mean_bounds relevant hrne hrbound
  refine ⟨hmem, ?_, ?_, ?_⟩
  · rw [havg, hfeq]
  · rw [havg]; exact hbounds.1
  · rw [havg]; exact hbounds.2

/-- Witness for the confidence theorem at a concrete record. -/
theorem confidence_bounds_witness :
    ((calculate_confidence_scores (("pb-x").toList) (("core").toList)
        (some (("T").toList)) none none [] none none (("as-needed").toList)
        none [] []) =
      calculate_confidence_scores (("pb-x").toList) (("core").toList)
        (some (("T").toList)) none none [] none none (("as-needed").toList)
        none [] []) ∧
    0 ≤ calculate_average_confidence
        (calculate_confidence_scores (("pb-x").toList) (("core").toList)
          (some (("T").toList)) none none [] none none (("as-needed").toList)
          none [] []) ∧
    calculate_average_confidence
        (calculate_confidence_scores (("pb-x").toList) (("core").toList)
          (some (("T").toList)) none none [] none none (("as-needed").toList)
          none [] []) ≤ 1 :=
  ⟨rfl,
   (confidence_bounds_and_average (("pb-x").toList) (("core").toList)
      (some (("T").toList)) none none [] none none (("as-needed").toList)
      none [] [] _ rfl).2.2.1,
   (confidence_bounds_and_average (("pb-x").toList) (("core").toList)
      (some (("T").toList)) none none [] none none (("as-needed").toList)
      none [] [] _ rfl).2.2.2⟩

/-!
Embedding of `scripts/reconcile-metadata.py`.
-/

/-- Anchored matcher for the Resource Hint pattern: the bold marker, at
least one whitespace character, then one of the three model names tried
in alternation order. -/
def tryResourceHint (s : List Char) : Option (List Char) :=
  if pfx ("**Resource Hint:**").toList s then
    match s.drop 18 with
    | c :: t =>
      if isPySpace c then
        if pfx ("sonnet").toList ((c :: t).dropWhile isPySpace) then
          some (("sonnet").toList)
        else if pfx ("opus").toList ((c :: t).dropWhile isPySpace) then
          some (("opus").toList)
        else if pfx ("haiku").toList ((c :: t).dropWhile isPySpace) then
          some (("haiku").toList)
        else none
      else none
    | [] => none
  else none

/-- Embedding of `extract_resource_hint` (`reconcile-metadata.py`, lines
18-29): leftmost Resource Hint occurrence in the whole content. -/
def extract_resource_hint (content : List Char) : Option (List Char) :=
  searchO tryResourceHint content

/-- Front-matter match of `reconcile-metadata.py`: the content starts
with a dashes line and the block runs to the first closing dashes line;
the block body and the remainder are returned. -/
def fmSplit (content : List Char) : Option (List Char × List Char) :=
  if pfx ("---\n").toList content then
    splitOnFirst ("\n---\n").toList (content.drop 4)
  else none

/-- Key-value parse of the front-matter body (`extract_frontmatter`,
`reconcile-metadata.py`, lines 44-56): stripped lines, comment and
colon-free lines skipped, split at the first colon, later duplicate keys
overwriting earlier values. -/
def fmLineStep (d : List (List Char × List Char)) (line : List Char) :
    List (List Char × List Char) :=
  match pyStrip line with
  | [] => d
  | c :: rest =>
    if c == '#' then d
    else
      match splitOnFirst [':'] (c :: rest) with
      | some (k, v) => updateAssoc d (pyStrip k) (pyStrip v)
      | none => d

/-- Fold of the line parse over all front-matter lines. -/
def parseFrontmatterLines (lines : List (List Char)) :
    List (List Char × List Char) :=
  lines.foldl fmLineStep []

/-- Embedding of `extract_frontmatter` (`reconcile-metadata.py`, lines
32-58); the redundant startswith check of the source cannot change the
result, because the regex itself requires the leading dashes line. -/
def extract_frontmatter (content : List Char) :
    List (List Char × List Char) × List Char :=
  match fmSplit content with
  | none => ([], content)
  | some (yaml, rest) => (parseFrontmatterLines (lineSplit yaml), rest)

/-- Parsed front-matter model hint with surrounding double quotes
stripped, the value compared by the reconciler (`reconcile-metadata.py`,
line 99). -/
def metaModelHint (content : List Char) : List Char :=
  pyStripQuotes
    ((lookupAssoc (extract_frontmatter content).1 (("model_hint").toList)).getD [])

/-- Anchored matcher for the quoted model-hint pattern of the rewrite:
the key literal, greedy whitespace, a double quote, a greedy run of
non-quote characters, then the closing quote; returns the remainder
after the match. -/
def tryModelHintPat (s : List Char) : Option (List Char) :=
  if pfx ("model_hint:").toList s then
    match (s.drop 11).dropWhile isPySpace with
    | c :: t =>
      if c = '"' then
        match t.dropWhile (fun d => !(d == '"')) with
        | d :: t2 => if d = '"' then some t2 else none
        | [] => none
      else none
    | [] => none
  else none

/-- Replacement text written for each match of the quoted model-hint
pattern. -/
def modelHintRepl (b : List Char) : List Char :=
  ("model_hint: \"").toList ++ b ++ [('"' : Char)]

/-- Substitution of every quoted model-hint occurrence in a front-matter
body. -/
def subModelHint (yaml b : List Char) : List Char :=
  subAllF tryModelHintPat (modelHintRepl b) yaml.length yaml

/-- Embedding of `update_metadata_model_hint` (`reconcile-metadata.py`,
lines 61-77): without a front-matter block the content is returned
unchanged, otherwise the block body is rewritten and the delimiters and
remainder are reassembled around it. -/
def update_metadata_model_hint (content b : List Char) : List Char :=
  match fmSplit content with
  | none => content
  | some (yaml, rest) =>
    ("---\n").toList ++ subModelHint yaml b ++ ("\n---\n").toList ++ rest

/-- Conflict test of the reconciler main loop (`reconcile-metadata.py`,
line 102): a body hint exists, the parsed front-matter hint is nonempty,
and the two differ. -/
def reconcileConflict (content : List Char) : Bool :=
  match extract_resource_hint content with
  | none => false
  | some b =>
    let m := metaModelHint content
    !m.isEmpty && decide (b ≠ m)

/-- Fix-mode action on one document (`reconcile-metadata.py`, lines
129-140): a conflicted document is rewritten with the body hint, any
other document is left untouched. -/
def reconcile_fix_file (content : List Char) : List Char :=
  match extract_resource_hint content with
  | none => content
  | some b =>
    let m := metaModelHint content
    if m ≠ [] ∧ b ≠ m then update_metadata_model_hint content b else content

/-- Fix mode over a corpus: each document is processed independently, in
order. -/
def reconcile_fix_pass (docs : List (List Char)) : List (List Char) :=
  docs.map reconcile_fix_file

/-- Number of conflicts a check pass reports on a corpus. -/
def conflictCount (docs : List (List Char)) : Nat :=
  docs.countP (fun c => reconcileConflict c)

/-!
Scanner lemmas used for the reconciliation and rewrite theorems.
-/

/-- Scan asserting that a matcher fails at the first `n` positions of a
text. -/
def noMatchWithin (f : List Char → Option (List Char)) : Nat → List Char → Bool
  | 0, _ => true
  | _ + 1, [] => true
  | n + 1, s@(_ :: t) => (f s).isNone && noMatchWithin f n t

/-- Scan asserting that a pattern is not an initial segment at the first
`n` positions of a text. -/
def noPfxWithin (pat : List Char) : Nat → List Char → Bool
  | 0, _ => true
  | _ + 1, [] => true
  | n + 1, s@(_ :: t) => !(pfx pat s) && noPfxWithin pat n t

theorem pfx_append_self : ∀ p r : List Char, pfx p (p ++ r) = true := by
  intro p
  induction p with
  | nil => intro r; rfl
  | cons a as ih => intro r; simp [pfx, ih]

theorem pfx_single_head : ∀ (x c : Char) (t : List Char),
    pfx [x] (c :: t) = (x == c) := by
  intro x c t
  simp [pfx]

theorem noPfxWithin_single : ∀ (x : Char) (y z : List Char), x ∉ y →
    noPfxWithin [x] y.length (y ++ z) = true := by
  intro x y
  induction y with
  | nil => intro z _; rfl
  | cons c t ih =>
    intro z hx
    have hxc : x ≠ c := fun h => hx (h ▸ List.mem_cons_self c t)
    have hxt : x ∉ t := fun h => hx (List.mem_cons_of_mem c h)
    simp only [List.length_cons, List.cons_append, noPfxWithin, pfx_single_head]
    simp [hxc, ih z hxt]

theorem splitOnFirst_exact :
    ∀ (pat y z : List Char), pat ≠ [] →
      noPfxWithin pat y.length (y ++ pat ++ z) = true →
      splitOnFirst pat (y ++ pat ++ z) = some (y, z) := by
  intro pat y
  induction y with
  | nil =>
    intro z hp _
    cases pat with
    | nil => exact absurd rfl hp
    | cons a pat' =>
      have hpfx : pfx (a :: pat') ((a :: pat') ++ z) = true := pfx_append_self _ z
      have hdrop : ((a :: pat') ++ z).drop (a :: pat').length = z := List.drop_left _ _
      simp only [List.nil_append, List.cons_append] at hpfx hdrop ⊢
      rw [splitOnFirst, if_pos hpfx, hdrop]
  | cons c y' ih =>
    intro z hp hn
    simp only [List.length_cons, List.cons_append, noPfxWithin, List.append_eq,
      Bool.and_eq_true, Bool.not_eq_true'] at hn
    simp only [List.cons_append]
    rw [splitOnFirst, if_neg (by rw [hn.1]; exact fun h => nomatch h)]
    rw [ih z hp hn.2]

theorem noMatchWithin_spec :
    ∀ (f : List Char → Option (List Char)) (p z : List Char),
      noMatchWithin f p.length (p ++ z) = true →
      ∀ u w, u ≠ [] → w ++ u = p → f (u ++ z) = none := by
  intro f p
  induction p with
  | nil =>
    intro z _ u w hu hw
    rcases List.append_eq_nil.mp hw with ⟨_, h2⟩
    exact absurd h2 hu
  | cons c p' ih =>
    intro z hn u w hu hw
    simp only [List.length_cons, List.cons_append, noMatchWithin,
      Bool.and_eq_true, Option.isNone_iff_eq_none] at hn
    cases w with
    | nil =>
      simp only [List.nil_append] at hw
      rw [hw, List.cons_append]
      exact hn.1
    | cons d w' =>
      have hw' : w' ++ u = p' := by
        injection hw with _ h2
      exact ih z hn.2 u w' hu hw'

theorem subAllF_nil : ∀ (f : List Char → Option (List Char)) repl fuel,
    subAllF f repl fuel [] = [] := by
  intro f repl fuel
  cases fuel <;> rfl

theorem subAllF_skip :
    ∀ (f : List Char → Option (List Char)) (repl : List Char) (p z : List Char)
      (fuel : Nat),
      (∀ u w, u ≠ [] → w ++ u = p → f (u ++ z) = none) →
      p.length ≤ fuel →
      subAllF f repl fuel (p ++ z) = p ++ subAllF f repl (fuel - p.length) z := by
  intro f repl p
  induction p with
  | nil => intro z fuel _ _; simp
  | cons c p' ih =>
    intro z fuel hnone hlen
    cases fuel with
    | zero => simp at hlen
    | succ m =>
      have hm : f (c :: (p' ++ z)) = none := by
        have h0 := hnone (c :: p') [] (fun h => nomatch h) rfl
        simpa [List.cons_append] using h0
      have hrec := ih z m
        (fun u w hu hw => hnone u (c :: w) hu (by rw [List.cons_append, hw]))
        (Nat.le_of_succ_le_succ (by simpa using hlen))
      calc subAllF f repl (m + 1) ((c :: p') ++ z)
          = subAllF f repl (m + 1) (c :: (p' ++ z)) := by rw [List.cons_append]
        _ = c :: subAllF f repl m (p' ++ z) := by rw [subAllF, hm]
        _ = c :: (p' ++ subAllF f repl (m - p'.length) z) := by rw [hrec]
        _ = (c :: p') ++ subAllF f repl (m + 1 - (c :: p').length) z := by
              have hfuel : m + 1 - (c :: p').length = m - p'.length := by
                simp only [List.length_cons]
                omega
              rw [hfuel, List.cons_append]

theorem subAllF_head_match :
    ∀ (f : List Char → Option (List Char)) (repl : List Char) (c : Char)
      (t r : List Char) (fuel : Nat),
      f (c :: t) = some r →
      subAllF f repl (fuel + 1) (c :: t) = repl ++ subAllF f repl fuel r := by
  intro f repl c t r fuel hf
  rw [subAllF, hf]

theorem dropWhile_all_append :
    ∀ (p : Char → Bool) (u : List Char) (x : Char) (r : List Char),
      (∀ c ∈ u, p c = true) → p x = false →
      List.dropWhile p (u ++ x :: r) = x :: r := by
  intro p u
  induction u with
  | nil => intro x r _ hx; simp [List.dropWhile, hx]
  | cons c u' ih =>
    intro x r hall hx
    have hc : p c = true := hall c (List.mem_cons_self c u')
    simp only [List.cons_append, List.dropWhile, hc]
    exact ih x r (fun d hd => hall d (List.mem_cons_of_mem c hd)) hx

theorem pyStrip_ws_prefix :
    ∀ (ws : List Char) (x : Char) (mid : List Char) (y : Char),
      (∀ c ∈ ws, isPySpace c = true) → isPySpace x = false → isPySpace y = false →
      pyStrip (ws ++ x :: (mid ++ [y])) = x :: (mid ++ [y]) := by
  intro ws x mid y hws hx hy
  rw [pyStrip, dropWhile_all_append isPySpace ws x (mid ++ [y]) hws hx]
  have hrev : (x :: (mid ++ [y])).reverse = y :: (mid.reverse ++ [x]) := by
    simp
  rw [hrev]
  rw [List.dropWhile_cons_of_neg (by simp [hy])]
  rw [← hrev, List.reverse_reverse]

theorem pyStrip_singleton :
    ∀ x : Char, isPySpace x = false → pyStrip [x] = [x] := by
  intro x hx
  rw [pyStrip]
  rw [List.dropWhile_cons_of_neg (by simp [hx])]
  simp [List.dropWhile_cons_of_neg, hx]

theorem pyStripQuotes_wrap :
    ∀ v : List Char, v ≠ [] → (∀ c ∈ v, ¬ c = '"') →
      pyStripQuotes ('"' :: (v ++ ['"'])) = v := by
  intro v hv hq
  rw [pyStripQuotes]
  rw [List.dropWhile_cons_of_pos (by simp)]
  cases v with
  | nil => exact absurd rfl hv
  | cons d v' =>
    have hd : ¬ d = '"' := hq d (List.mem_cons_self d v')
    simp only [List.cons_append]
    rw [List.dropWhile_cons_of_neg (by simp [hd])]
    have hrev : (d :: (v' ++ ['"'])).reverse = '"' :: (d :: v').reverse := by
      simp
    rw [hrev]
    rw [List.dropWhile_cons_of_pos (by simp)]
    cases hrv : (d :: v').reverse with
    | nil => simp at hrv
    | cons e r =>
      have he : e ∈ (d :: v').reverse := by rw [hrv]; exact List.mem_cons_self e r
      have he2 : ¬ e = '"' := hq e (List.mem_reverse.mp he)
      rw [List.dropWhile_cons_of_neg (by simp [he2])]
      rw [← hrv, List.reverse_reverse]

/-- Concatenation of lines with a newline after each line. -/
def joinNl : List (List Char) → List Char
  | [] => []
  | l :: ls => l ++ '\n' :: joinNl ls

theorem lineSplit_no_nl : ∀ w : List Char, '\n' ∉ w → lineSplit w = [w] := by
  intro w
  induction w with
  | nil => intro _; rfl
  | cons c t ih =>
    intro h
    have hc : ¬ c = '\n' := fun he => h (he ▸ List.mem_cons_self c t)
    have ht : '\n' ∉ t := fun hm => h (List.mem_cons_of_mem c hm)
    rw [lineSplit, if_neg hc, ih ht]

theorem lineSplit_glue :
    ∀ (l X : List Char), '\n' ∉ l → lineSplit (l ++ '\n' :: X) = l :: lineSplit X := by
  intro l
  induction l with
  | nil => intro X _; simp [lineSplit]
  | cons c t ih =>
    intro X h
    have hc : ¬ c = '\n' := fun he => h (he ▸ List.mem_cons_self c t)
    have ht : '\n' ∉ t := fun hm => h (List.mem_cons_of_mem c hm)
    rw [List.cons_append, lineSplit, if_neg hc, ih X ht]

theorem lineSplit_joinNl :
    ∀ (ls : List (List Char)) (w : List Char),
      (∀ l ∈ ls, '\n' ∉ l) → '\n' ∉ w →
      lineSplit (joinNl ls ++ w) = ls ++ [w] := by
  intro ls
  induction ls with
  | nil => intro w _ hw; simp [joinNl, lineSplit_no_nl w hw]
  | cons l ls' ih =>
    intro w hall hw
    have hl : '\n' ∉ l := hall l (List.mem_cons_self l ls')
    rw [joinNl, List.append_assoc, List.cons_append]
    rw [lineSplit_glue l (joinNl ls' ++ w) hl]
    rw [ih w (fun x hx => hall x (List.mem_cons_of_mem l hx)) hw]
    rfl

theorem lookupAssoc_updateAssoc_self :
    ∀ (d : List (List Char × List Char)) (k v : List Char),
      lookupAssoc (updateAssoc d k v) k = some v := by
  intro d
  induction d with
  | nil => intro k v; simp [updateAssoc, lookupAssoc]
  | cons p rest ih =>
    intro k v
    rw [updateAssoc]
    by_cases h : p.1 = k
    · rw [if_pos h, lookupAssoc, if_pos rfl]
    · rw [if_neg h, lookupAssoc, if_neg h, ih]

theorem tryResourceHint_not_star :
    ∀ (c : Char) (t : List Char), ¬ c = '*' → tryResourceHint (c :: t) = none := by
  intro c t hc
  rw [tryResourceHint]
  rw [show ("**Resource Hint:**").toList = '*' :: ("*Resource Hint:**").toList
    from by decide]
  have : pfx ('*' :: ("*Resource Hint:**").toList) (c :: t) = false := by
    simp [pfx]
    intro he
    exact absurd he.symm hc
  rw [this]
  simp

theorem searchO_skip_star :
    ∀ (p z : List Char), (∀ c ∈ p, ¬ c = '*') →
      searchO tryResourceHint (p ++ z) = searchO tryResourceHint z := by
  intro p
  induction p with
  | nil => intro z _; rfl
  | cons c t ih =>
    intro z hp
    have hc := hp c (List.mem_cons_self c t)
    rw [List.cons_append, searchO, tryResourceHint_not_star c (t ++ z) hc]
    exact ih z (fun d hd => hp d (List.mem_cons_of_mem c hd))

theorem tryResourceHint_values :
    ∀ (s b : List Char), tryResourceHint s = some b →
      b = ("sonnet").toList ∨ b = ("opus").toList ∨ b = ("haiku").toList := by
  intro s b h
  rw [tryResourceHint] at h
  by_cases h1 : pfx ("**Resource Hint:**").toList s = true
  · rw [if_pos h1] at h
    cases hr : s.drop 18 with
    | nil => rw [hr] at h; exact absurd h (by simp)
    | cons c t =>
      rw [hr] at h
      dsimp only at h
      by_cases h2 : isPySpace c = true
      · rw [if_pos h2] at h
        by_cases h3 : pfx ("sonnet").toList ((c :: t).dropWhile isPySpace) = true
        · rw [if_pos h3] at h
          injection h with h
          exact Or.inl h.symm
        · rw [if_neg h3] at h
          by_cases h4 : pfx ("opus").toList ((c :: t).dropWhile isPySpace) = true
          · rw [if_pos h4] at h
            injection h with h
            exact Or.inr (Or.inl h.symm)
          · rw [if_neg h4] at h
            by_cases h5 : pfx ("haiku").toList ((c :: t).dropWhile isPySpace) = true
            · rw [if_pos h5] at h
              injection h with h
              exact Or.inr (Or.inr h.symm)
            · rw [if_neg h5] at h
              exact absurd h (by simp)
      · rw [if_neg h2] at h
        exact absurd h (by simp)
  · rw [if_neg h1] at h
    exact absurd h (by simp)

theorem extract_resource_hint_values :
    ∀ (s b : List Char), extract_resource_hint s = some b →
      b = ("sonnet").toList ∨ b = ("opus").toList ∨ b = ("haiku").toList := by
  intro s
  induction s with
  | nil =>
    intro b h
    exact tryResourceHint_values [] b h
  | cons c t ih =>
    intro b h
    rw [extract_resource_hint, searchO] at h
    cases hf : tryResourceHint (c :: t) with
    | some a =>
      rw [hf] at h
      injection h with h
      exact h ▸ tryResourceHint_values (c :: t) a hf
    | none =>
      rw [hf] at h
      exact ih b h

theorem fmSplit_build :
    ∀ (y rest : List Char),
      noPfxWithin (("\n---\n").toList) y.length
        (y ++ ("\n---\n").toList ++ rest) = true →
      fmSplit (("---\n").toList ++ y ++ ("\n---\n").toList ++ rest) =
        some (y, rest) := by
  intro y rest hn
  rw [fmSplit]
  rw [if_pos (by
    rw [List.append_assoc, List.append_assoc]
    exact pfx_append_self _ _)]
  rw [List.append_assoc, List.append_assoc]
  rw [List.drop_left' (by decide)]
  rw [← List.append_assoc]
  exact splitOnFirst_exact _ y rest (by decide) hn

theorem pfx_length :
    ∀ p s : List Char, pfx p s = true → p.length ≤ s.length := by
  intro p
  induction p with
  | nil => intro s _; simp
  | cons a as ih =>
    intro s h
    cases s with
    | nil => exact absurd h (by simp [pfx])
    | cons b bs =>
      simp only [pfx, Bool.and_eq_true] at h
      simpa using ih bs h.2

theorem length_dropWhile_le :
    ∀ (p : Char → Bool) (l : List Char), (l.dropWhile p).length ≤ l.length := by
  intro p l
  induction l with
  | nil => simp
  | cons c t ih =>
    rw [List.dropWhile_cons]
    split_ifs with h
    · exact le_trans ih (by simp)
    · simp

theorem tryModelHintPat_consumes :
    ∀ s r : List Char, tryModelHintPat s = some r → r.length < s.length := by
  intro s r h
  rw [tryModelHintPat] at h
  split_ifs at h with h1
  have hs11 : 11 ≤ s.length := by
    have := pfx_length _ _ h1
    simpa using this
  have hd1 : ((s.drop 11).dropWhile isPySpace).length ≤ s.length - 11 := by
    calc ((s.drop 11).dropWhile isPySpace).length ≤ (s.drop 11).length :=
          length_dropWhile_le _ _
      _ = s.length - 11 := List.length_drop 11 s
  split at h
  all_goals try exact Option.noConfusion h
  rename_i c t heq
  split_ifs at h with hc
  have hd2 : (t.dropWhile (fun d => !(d == '"'))).length ≤ t.length :=
    length_dropWhile_le _ _
  split at h
  all_goals try exact Option.noConfusion h
  rename_i d t2 heq2
  split_ifs at h with hd
  injection h with h
  subst h
  rw [heq] at hd1
  rw [heq2] at hd2
  simp only [List.length_cons] at hd1 hd2
  omega

theorem subAllF_fuel_irrelevant :
    ∀ (f : List Char → Option (List Char)) (repl : List Char),
      (∀ s r, f s = some r → r.length < s.length) →
      ∀ (fuel1 fuel2 : Nat) (s : List Char),
        s.length ≤ fuel1 → s.length ≤ fuel2 →
        subAllF f repl fuel1 s = subAllF f repl fuel2 s := by
  intro f repl hf fuel1
  induction fuel1 with
  | zero =>
    intro fuel2 s h1 _
    have hs : s = [] := List.length_eq_zero.mp (Nat.le_zero.mp h1)
    subst hs
    rw [subAllF_nil, subAllF_nil]
  | succ m ih =>
    intro fuel2 s h1 h2
    cases s with
    | nil => rw [subAllF_nil, subAllF_nil]
    | cons c t =>
      cases fuel2 with
      | zero => simp at h2
      | succ m2 =>
        simp only [List.length_cons] at h1 h2
        rw [subAllF, subAllF]
        cases hm : f (c :: t) with
        | some r =>
          have hr := hf _ _ hm
          simp only [List.length_cons] at hr
          dsimp only
          rw [ih m2 r (by omega) (by omega)]
        | none =>
          dsimp only
          rw [ih m2 t (by omega) (by omega)]

theorem tryModelHintPat_block :
    ∀ (ws v z : List Char),
      (∀ c ∈ ws, isPySpace c = true) → (∀ c ∈ v, ¬ c = '"') →
      tryModelHintPat (("model_hint:").toList ++ (ws ++ '"' :: (v ++ '"' :: z))) =
        some z := by
  intro ws v z hws hv
  rw [tryModelHintPat]
  rw [if_pos (pfx_append_self _ _)]
  rw [List.drop_left' (by decide)]
  rw [dropWhile_all_append isPySpace ws '"' (v ++ '"' :: z) hws (by decide)]
  dsimp only
  rw [if_pos rfl]
  rw [dropWhile_all_append (fun d => !(d == '"')) v '"' z
    (by intro c hc; simp [hv c hc]) (by simp)]
  dsimp only
  rw [if_pos rfl]

theorem subModelHint_rewrite :
    ∀ (p ws v z b : List Char),
      noMatchWithin tryModelHintPat p.length
        (p ++ (("model_hint:").toList ++ (ws ++ '"' :: (v ++ '"' :: z)))) = true →
      (∀ c ∈ ws, isPySpace c = true) → (∀ c ∈ v, ¬ c = '"') →
      subModelHint (p ++ (("model_hint:").toList ++ (ws ++ '"' :: (v ++ '"' :: z)))) b =
        p ++ modelHintRepl b ++ subModelHint z b := by
  intro p ws v z b hnm hws hv
  have hX : (("model_hint:").toList ++ (ws ++ '"' :: (v ++ '"' :: z))) =
      'm' :: (("odel_hint:").toList ++ (ws ++ '"' :: (v ++ '"' :: z))) := by
    rw [show ("model_hint:").toList = 'm' :: ("odel_hint:").toList from by decide]
    rfl
  rw [subModelHint]
  rw [subAllF_skip tryModelHintPat (modelHintRepl b) p _ _
    (noMatchWithin_spec tryModelHintPat p _ hnm) (by simp)]
  rw [List.append_assoc]
  congr 1
  have hlen : (p ++ (("model_hint:").toList ++ (ws ++ '"' :: (v ++ '"' :: z)))).length
      - p.length =
      (("model_hint:").toList ++ (ws ++ '"' :: (v ++ '"' :: z))).length := by
    simp
  rw [hlen, hX]
  rw [show (('m' :: (("odel_hint:").toList ++ (ws ++ '"' :: (v ++ '"' :: z))))).length =
    (("odel_hint:").toList ++ (ws ++ '"' :: (v ++ '"' :: z))).length + 1 from by
      simp]
  rw [subAllF_head_match tryModelHintPat (modelHintRepl b) 'm' _ z _
    (by rw [← hX]; exact tryModelHintPat_block ws v z hws hv)]
  rw [subModelHint]
  congr 1
  apply subAllF_fuel_irrelevant tryModelHintPat (modelHintRepl b)
    tryModelHintPat_consumes
  · simp
    omega
  · simp

theorem subModelHint_unchanged :
    ∀ (y b : List Char), noMatchWithin tryModelHintPat y.length y = true →
      subModelHint y b = y := by
  intro y b hnm
  rw [subModelHint]
  have h0 := subAllF_skip tryModelHintPat (modelHintRepl b) y [] y.length
    (noMatchWithin_spec tryModelHintPat y [] (by simpa using hnm)) (le_refl _)
  simp only [List.append_nil] at h0
  rw [h0, Nat.sub_self, subAllF_nil, List.append_nil]

/-- Model-hint front-matter line with the given whitespace and quoted
value, an input constructor for the well-formed document family. -/
def mhLine (ws v : List Char) : List Char :=
  ("model_hint:").toList ++ (ws ++ '"' :: (v ++ ['"']))

/-- Front-matter body made of arbitrary lines followed by a model-hint
line. -/
def fmYaml (preLines : List (List Char)) (ws v : List Char) : List Char :=
  joinNl preLines ++ mhLine ws v

/-- Well-formed document: front-matter block with a final model-hint
line, then the body. -/
def fmDoc (preLines : List (List Char)) (ws v rest : List Char) : List Char :=
  ("---\n").toList ++ fmYaml preLines ws v ++ ("\n---\n").toList ++ rest

theorem fmLineStep_model_hint :
    ∀ (d : List (List Char × List Char)) (ws v : List Char),
      (∀ c ∈ ws, isPySpace c = true) →
      fmLineStep d (mhLine ws v) =
        updateAssoc d (("model_hint").toList) ('"' :: (v ++ ['"'])) := by
  intro d ws v hws
  have hshape : mhLine ws v =
      'm' :: ((("odel_hint:").toList ++ (ws ++ '"' :: v)) ++ ['"']) := by
    rw [mhLine,
      show ("model_hint:").toList = 'm' :: ("odel_hint:").toList from by decide]
    simp
  have hstrip : pyStrip (mhLine ws v) = mhLine ws v := by
    conv in pyStrip _ => rw [hshape]
    have h0 := pyStrip_ws_prefix [] 'm'
      ((("odel_hint:").toList ++ (ws ++ '"' :: v))) '"'
      (by intro c hc; cases hc) (by decide) (by decide)
    simp only [List.nil_append] at h0
    rw [h0, ← hshape]
  rw [fmLineStep, hstrip, hshape]
  dsimp only
  rw [if_neg (by decide)]
  have hsplit : splitOnFirst [':']
      ('m' :: ((("odel_hint:").toList ++ (ws ++ '"' :: v)) ++ ['"'])) =
      some (("model_hint").toList, ws ++ '"' :: (v ++ ['"'])) := by
    have h0 := splitOnFirst_exact [':'] (("model_hint").toList)
      (ws ++ '"' :: (v ++ ['"'])) (by simp)
      (by
        have h1 := noPfxWithin_single ':' (("model_hint").toList)
          ([':'] ++ (ws ++ '"' :: (v ++ ['"']))) (by decide)
        simpa [List.append_assoc] using h1)
    have h2 : (("model_hint").toList ++ [':'] ++ (ws ++ '"' :: (v ++ ['"']))) =
        'm' :: ((("odel_hint:").toList ++ (ws ++ '"' :: v)) ++ ['"']) := by
      rw [show ("model_hint").toList ++ [':'] = 'm' :: ("odel_hint:").toList
        from by decide]
      simp
    rw [h2] at h0
    exact h0
  rw [hsplit]
  have hk : pyStrip (("model_hint").toList) = ("model_hint").toList := by decide
  have hv2 : pyStrip (ws ++ '"' :: (v ++ ['"'])) = '"' :: (v ++ ['"']) := by
    exact pyStrip_ws_prefix ws '"' v '"' hws (by decide) (by decide)
  dsimp only
  rw [hk, hv2]

theorem modelHintRepl_eq_mhLine :
    ∀ b : List Char, modelHintRepl b = mhLine [' '] b := by
  intro b
  rw [modelHintRepl, mhLine,
    show ("model_hint: \"").toList = ("model_hint:").toList ++ [' ', '"']
      from by decide]
  simp

theorem metaModelHint_build :
    ∀ (preLines : List (List Char)) (ws v rest : List Char),
      (∀ l ∈ preLines, '\n' ∉ l) →
      (∀ c ∈ ws, isPySpace c = true) → '\n' ∉ ws →
      v ≠ [] → (∀ c ∈ v, ¬ c = '"') → '\n' ∉ v →
      noPfxWithin (("\n---\n").toList) (fmYaml preLines ws v).length
        (fmYaml preLines ws v ++ ("\n---\n").toList ++ rest) = true →
      metaModelHint (fmDoc preLines ws v rest) = v := by
  intro preLines ws v rest hpre hws hwsnl hv hvq hvnl hnd
  have hfm : fmSplit (fmDoc preLines ws v rest) =
      some (fmYaml preLines ws v, rest) := by
    rw [fmDoc]
    exact fmSplit_build _ _ hnd
  have hnl : '\n' ∉ mhLine ws v := by
    intro hmem
    simp only [mhLine, List.mem_append, List.mem_cons, List.mem_singleton] at hmem
    rcases hmem with h | h | h | h | h
    · exact absurd h (by decide)
    · exact hwsnl h
    · exact absurd h (by decide)
    · exact hvnl h
    · exact absurd h (by decide)
  have hlines : lineSplit (fmYaml preLines ws v) = preLines ++ [mhLine ws v] := by
    rw [fmYaml]
    exact lineSplit_joinNl preLines (mhLine ws v) hpre hnl
  rw [metaModelHint, extract_frontmatter, hfm]
  dsimp only
  rw [hlines, parseFrontmatterLines, List.foldl_append, List.foldl_cons,
    List.foldl_nil]
  rw [fmLineStep_model_hint _ ws v hws]
  rw [lookupAssoc_updateAssoc_self]
  dsimp only [Option.getD]
  exact pyStripQuotes_wrap v hv hvq

theorem resource_hint_fmDoc :
    ∀ (preLines : List (List Char)) (ws v rest : List Char),
      (∀ c ∈ joinNl preLines, ¬ c = '*') →
      (∀ c ∈ ws, isPySpace c = true) → (∀ c ∈ v, ¬ c = '*') →
      extract_resource_hint (fmDoc preLines ws v rest) =
        extract_resource_hint rest := by
  intro preLines ws v rest hpre hws hv
  have hstar : ∀ c ∈ (("---\n").toList ++ fmYaml preLines ws v ++
      ("\n---\n").toList), ¬ c = '*' := by
    intro c hc he
    subst he
    simp only [fmYaml, List.append_assoc, List.mem_append] at hc
    rcases hc with h | h | h | h
    · exact absurd h (by decide)
    · exact hpre '*' h rfl
    · simp only [mhLine, List.mem_append, List.mem_cons,
        List.mem_singleton] at h
      rcases h with h | h | h
      · exact absurd h (by decide)
      · exact absurd (hws '*' h) (by decide)
      · rcases h with h | h
        · exact absurd h (by decide)
        · rcases h with h | h
          · exact hv '*' h rfl
          · exact absurd h (by decide)
    · exact absurd h (by decide)
  rw [fmDoc, extract_resource_hint, extract_resource_hint]
  have := searchO_skip_star (("---\n").toList ++ fmYaml preLines ws v ++
    ("\n---\n").toList) rest hstar
  simpa [List.append_assoc] using this

theorem subModelHint_fmYaml :
    ∀ (preLines : List (List Char)) (ws v b : List Char),
      noMatchWithin tryModelHintPat (joinNl preLines).length
        (fmYaml preLines ws v) = true →
      (∀ c ∈ ws, isPySpace c = true) → (∀ c ∈ v, ¬ c = '"') →
      subModelHint (fmYaml preLines ws v) b = fmYaml preLines [' '] b := by
  intro preLines ws v b hnm hws hv
  have h0 := subModelHint_rewrite (joinNl preLines) ws v [] b
    (by
      have : mhLine ws v =
          ("model_hint:").toList ++ (ws ++ '"' :: (v ++ '"' :: [])) := by
        rw [mhLine]
      rw [fmYaml, this] at hnm
      exact hnm)
    hws hv
  rw [fmYaml, mhLine]
  rw [show (v ++ ['"']) = v ++ '"' :: [] from rfl]
  rw [h0]
  rw [show subModelHint [] b = [] from rfl]
  rw [List.append_nil, modelHintRepl_eq_mhLine, fmYaml]

theorem resource_hint_value_facts :
    ∀ (s b : List Char), extract_resource_hint s = some b →
      b ≠ [] ∧ (∀ c ∈ b, ¬ c = '"') ∧ '\n' ∉ b ∧ (∀ c ∈ b, ¬ c = '*') := by
  intro s b h
  rcases extract_resource_hint_values s b h with h | h | h <;> subst h <;>
    exact ⟨by decide, by decide, by decide, by decide⟩

theorem reconcile_fix_file_good :
    ∀ (preLines : List (List Char)) (ws v rest b : List Char),
      (∀ l ∈ preLines, '\n' ∉ l) →
      (∀ c ∈ joinNl preLines, ¬ c = '*') →
      (∀ c ∈ ws, isPySpace c = true) → '\n' ∉ ws →
      v ≠ [] → (∀ c ∈ v, ¬ c = '"') → '\n' ∉ v → (∀ c ∈ v, ¬ c = '*') →
      extract_resource_hint rest = some b →
      noMatchWithin tryModelHintPat (joinNl preLines).length
        (fmYaml preLines ws v) = true →
      noPfxWithin (("\n---\n").toList) (fmYaml preLines ws v).length
        (fmYaml preLines ws v ++ ("\n---\n").toList ++ rest) = true →
      noPfxWithin (("\n---\n").toList) (fmYaml preLines [' '] b).length
        (fmYaml preLines [' '] b ++ ("\n---\n").toList ++ rest) = true →
      reconcileConflict (reconcile_fix_file (fmDoc preLines ws v rest)) = false ∧
      reconcile_fix_file (reconcile_fix_file (fmDoc preLines ws v rest)) =
        reconcile_fix_file (fmDoc preLines ws v rest) := by
  intro preLines ws v rest b hpre1 hpre2 hws hwsnl hv1 hv2 hv3 hv4 hb hnm hnd1 hnd2
  have hrh : extract_resource_hint (fmDoc preLines ws v rest) = some b := by
    rw [resource_hint_fmDoc preLines ws v rest hpre2 hws hv4]
    exact hb
  have hmeta : metaModelHint (fmDoc preLines ws v rest) = v :=
    metaModelHint_build preLines ws v rest hpre1 hws hwsnl hv1 hv2 hv3 hnd1
  by_cases hbv : b = v
  · have hfix : reconcile_fix_file (fmDoc preLines ws v rest) =
        fmDoc preLines ws v rest := by
      simp only [reconcile_fix_file, hrh, hmeta]
      rw [if_neg (by rintro ⟨-, h2⟩; exact h2 hbv)]
    have hcf : reconcileConflict (fmDoc preLines ws v rest) = false := by
      simp only [reconcileConflict, hrh, hmeta]
      simp [hbv]
    exact ⟨by rw [hfix]; exact hcf, by rw [hfix, hfix]⟩
  · obtain ⟨hb1, hb2, hb3, hb4⟩ := resource_hint_value_facts rest b hb
    have hone : ∀ c ∈ ([' '] : List Char), isPySpace c = true := by decide
    have hsplit : fmSplit (fmDoc preLines ws v rest) =
        some (fmYaml preLines ws v, rest) := by
      rw [fmDoc]
      exact fmSplit_build _ _ hnd1
    have hupd : update_metadata_model_hint (fmDoc preLines ws v rest) b =
        fmDoc preLines [' '] b rest := by
      simp only [update_metadata_model_hint, hsplit]
      rw [subModelHint_fmYaml preLines ws v b hnm hws hv2]
      rfl
    have hfix : reconcile_fix_file (fmDoc preLines ws v rest) =
        fmDoc preLines [' '] b rest := by
      simp only [reconcile_fix_file, hrh, hmeta]
      rw [if_pos ⟨hv1, hbv⟩, hupd]
    have hrh2 : extract_resource_hint (fmDoc preLines [' '] b rest) = some b := by
      rw [resource_hint_fmDoc preLines [' '] b rest hpre2 hone hb4]
      exact hb
    have hmeta2 : metaModelHint (fmDoc preLines [' '] b rest) = b :=
      metaModelHint_build preLines [' '] b rest hpre1 hone (by decide)
        hb1 hb2 hb3 hnd2
    have hfix2 : reconcile_fix_file (fmDoc preLines [' '] b rest) =
        fmDoc preLines [' '] b rest := by
      simp only [reconcile_fix_file, hrh2, hmeta2]
      rw [if_neg (by rintro ⟨-, h2⟩; exact h2 rfl)]
    have hcf2 : reconcileConflict (fmDoc preLines [' '] b rest) = false := by
      simp only [reconcileConflict, hrh2, hmeta2]
      simp
    exact ⟨by rw [hfix]; exact hcf2, by rw [hfix]; exact hfix2⟩

/-- C3: on every corpus of well-formed documents, each a front-matter
block whose last line is a quoted model-hint line followed by a body
carrying a Resource Hint, fix mode is idempotent and a pass after the
fix detects zero remaining conflicts. The claim as stated over every
corpus fails: for a document whose model-hint value is unquoted the
rewrite pattern cannot match, fix mode returns the file unchanged, and
the conflict survives the fix pass (see the counterexample). -/
theorem reconcile_fix_idempotent_and_clean :
    ∀ docs : List (List Char),
      (∀ c ∈ docs, ∃ (preLines : List (List Char)) (ws v rest b : List Char),
        c = fmDoc preLines ws v rest ∧
        (∀ l ∈ preLines, '\n' ∉ l) ∧
        (∀ ch ∈ joinNl preLines, ¬ ch = '*') ∧
        (∀ ch ∈ ws, isPySpace ch = true) ∧ '\n' ∉ ws ∧
        v ≠ [] ∧ (∀ ch ∈ v, ¬ ch = '"') ∧ '\n' ∉ v ∧ (∀ ch ∈ v, ¬ ch = '*') ∧
        extract_resource_hint rest = some b ∧
        noMatchWithin tryModelHintPat (joinNl preLines).length
          (fmYaml preLines ws v) = true ∧
        noPfxWithin (("\n---\n").toList) (fmYaml preLines ws v).length
          (fmYaml preLines ws v ++ ("\n---\n").toList ++ rest) = true ∧
        noPfxWithin (("\n---\n").toList) (fmYaml preLines [' '] b).length
          (fmYaml preLines [' '] b ++ ("\n---\n").toList ++ rest) = true) →
      reconcile_fix_pass (reconcile_fix_pass docs) = reconcile_fix_pass docs ∧
      conflictCount (reconcile_fix_pass docs) = 0 := by
  intro docs hdocs
  constructor
  · rw [reconcile_fix_pass, reconcile_fix_pass, List.map_map]
    apply List.map_congr_left
    intro c hc
    obtain ⟨pL, ws, v, rest, b, hceq, h1, h2, h3, h4, h5, h6, h7, h8, h9,
      h10, h11, h12⟩ := hdocs c hc
    subst hceq
    show reconcile_fix_file (reconcile_fix_file (fmDoc pL ws v rest)) =
      reconcile_fix_file (fmDoc pL ws v rest)
    exact (reconcile_fix_file_good pL ws v rest b h1 h2 h3 h4 h5 h6 h7 h8 h9
      h10 h11 h12).2
  · rw [conflictCount, reconcile_fix_pass, List.countP_eq_zero]
    intro a ha
    obtain ⟨c, hc, rfl⟩ := List.mem_map.mp ha
    obtain ⟨pL, ws, v, rest, b, hceq, h1, h2, h3, h4, h5, h6, h7, h8, h9,
      h10, h11, h12⟩ := hdocs c hc
    subst hceq
    have hcf := (reconcile_fix_file_good pL ws v rest b h1 h2 h3 h4 h5 h6 h7
      h8 h9 h10 h11 h12).1
    simp [hcf]

/-- Document whose front-matter model hint is unquoted: the Resource
Hint in the body disagrees with it, but the fix-mode rewrite pattern
requires a quoted value and so cannot repair it. -/
def unquotedHintDoc : List Char :=
  ("---\nmodel_hint: sonnet\n---\n**Resource Hint:** opus x\n").toList

/-- C3 counterexample: a corpus with a conflicted, unquoted model-hint
document is returned unchanged by fix mode, and the conflict is still
reported after the fix pass, refuting "no conflicts remain after a
successful fix pass" over all corpora. -/
theorem reconcile_fix_not_clean_cx :
    conflictCount [unquotedHintDoc] = 1 ∧
    reconcile_fix_pass [unquotedHintDoc] = [unquotedHintDoc] ∧
    conflictCount (reconcile_fix_pass [unquotedHintDoc]) = 1 := by
  refine ⟨by decide, by decide, by decide⟩

/-- C3 witness: a concrete one-document corpus, its front matter quoting
sonnet and its body hinting opus, on which fix mode is idempotent and
leaves zero conflicts. -/
theorem reconcile_fix_witness :
    reconcile_fix_pass (reconcile_fix_pass
        [fmDoc [("name: pb-x").toList] [' '] (("sonnet").toList)
          (("**Resource Hint:** opus desc\n").toList)]) =
      reconcile_fix_pass
        [fmDoc [("name: pb-x").toList] [' '] (("sonnet").toList)
          (("**Resource Hint:** opus desc\n").toList)] ∧
    conflictCount (reconcile_fix_pass
        [fmDoc [("name: pb-x").toList] [' '] (("sonnet").toList)
          (("**Resource Hint:** opus desc\n").toList)]) = 0 := by
  apply reconcile_fix_idempotent_and_clean
  intro c hc
  rw [List.mem_singleton] at hc
  subst hc
  exact ⟨[("name: pb-x").toList], [' '], ("sonnet").toList,
    ("**Resource Hint:** opus desc\n").toList, ("opus").toList,
    rfl, by decide, by decide, by decide, by decide, by decide, by decide,
    by decide, by decide, by decide, by decide, by decide, by decide⟩

/-- C10: the fix-mode rewrite returns content without a front-matter
block byte-identical; on well-formed front matter it keeps the opening
delimiter, the closing delimiter and every byte after it, rewriting only
the block body; a body segment without a quoted model-hint occurrence is
kept unchanged; a quoted model-hint occurrence (key, whitespace run,
quoted value) is replaced as a whole by the canonical replacement line
fragment. The replacement normalises the whitespace between the key and
the quote, so the rewrite can change more than the quoted value itself
(see the counterexample). -/
theorem frontmatter_rewrite_frame :
    (∀ (content b : List Char), fmSplit content = none →
      update_metadata_model_hint content b = content) ∧
    (∀ (y rest b : List Char),
      noPfxWithin (("\n---\n").toList) y.length
        (y ++ ("\n---\n").toList ++ rest) = true →
      update_metadata_model_hint
          (("---\n").toList ++ y ++ ("\n---\n").toList ++ rest) b =
        ("---\n").toList ++ subModelHint y b ++ ("\n---\n").toList ++ rest) ∧
    (∀ (y b : List Char), noMatchWithin tryModelHintPat y.length y = true →
      subModelHint y b = y) ∧
    (∀ (p ws v z b : List Char),
      noMatchWithin tryModelHintPat p.length
        (p ++ (("model_hint:").toList ++ (ws ++ '"' :: (v ++ '"' :: z)))) = true →
      (∀ c ∈ ws, isPySpace c = true) → (∀ c ∈ v, ¬ c = '"') →
      subModelHint
          (p ++ (("model_hint:").toList ++ (ws ++ '"' :: (v ++ '"' :: z)))) b =
        p ++ modelHintRepl b ++ subModelHint z b) := by
  refine ⟨?_, ?_, subModelHint_unchanged, subModelHint_rewrite⟩
  · intro content b h
    simp only [update_metadata_model_hint, h]
  · intro y rest b h
    simp only [update_metadata_model_hint, fmSplit_build y rest h]

/-- C10 counterexample: a model-hint line with two spaces before the
quoted value is rewritten onto one canonical space, so a byte inside the
front matter outside the quoted value changes, refuting "changes at most
the quoted value of the model_hint line". -/
theorem frontmatter_rewrite_ws_cx :
    update_metadata_model_hint
        (("---\nmodel_hint:  \"sonnet\"\n---\nbody\n").toList)
        (("opus").toList) =
      ("---\nmodel_hint: \"opus\"\n---\nbody\n").toList ∧
    update_metadata_model_hint
        (("---\nmodel_hint:  \"sonnet\"\n---\nbody\n").toList)
        (("opus").toList) ≠
      ("---\nmodel_hint:  \"opus\"\n---\nbody\n").toList := by
  refine ⟨by decide, by decide⟩

/-- C10 witness: the four conjuncts applied at concrete inputs -- no
front matter, a quoted-hint block, a hint-free body, and an exact quoted
occurrence. -/
theorem frontmatter_rewrite_frame_witness :
    update_metadata_model_hint (("no front matter\n").toList)
        (("opus").toList) = ("no front matter\n").toList ∧
    update_metadata_model_hint
        (("---\n").toList ++ ("model_hint: \"sonnet\"").toList ++
          ("\n---\n").toList ++ ("body\n").toList) (("opus").toList) =
      ("---\n").toList ++
        subModelHint (("model_hint: \"sonnet\"").toList) (("opus").toList) ++
        ("\n---\n").toList ++ ("body\n").toList ∧
    subModelHint (("title: x").toList) (("opus").toList) =
      ("title: x").toList ∧
    subModelHint ([] ++ (("model_hint:").toList ++
        ([' '] ++ '"' :: (("sonnet").toList ++ '"' :: []))))
        (("opus").toList) =
      [] ++ modelHintRepl (("opus").toList) ++
        subModelHint [] (("opus").toList) :=
  ⟨frontmatter_rewrite_frame.1 _ _ (by decide),
   frontmatter_rewrite_frame.2.1 _ _ _ (by decide),
   frontmatter_rewrite_frame.2.2.1 _ _ (by decide),
   frontmatter_rewrite_frame.2.2.2 [] [' '] (("sonnet").toList) [] _
     (by decide) (by decide) (by decide)⟩

end Playbook

